import Mathlib

/-! Simple state machine (src/main.c)

A shallow embedding of the event-driven state machine of `src/main.c`:
the state descriptors, the transition table, the event queue shared with the
interrupt handlers, and the control loop of `main`.

Conventions of the embedding
* C integers are natural numbers; `event_t` keeps the integer value of the
  enumeration, so that a queue slot can hold any value a handler copies in.
* Function pointers are the constructors of `state_func_t`.
* An array read outside its bounds has no defined result: table reads return
  `Option`, and the control loop stops with `fault_t.out_of_bounds`.
* Loops that need not terminate take a fuel argument and stop with
  `fault_t.out_of_fuel` when it is used up.
-/

namespace StateMachine

/-! ## Data model (main.c, lines 19-49) -/

/-- The function pointers stored in the state descriptors (`state_func_t`). -/
inductive state_func_t where
  | bsp_board_leds_off
  | do_state_0
  | do_state_1
  | do_state_2
  | do_state_3
  | start_state_3
  | exit_state_3
  deriving DecidableEq, Repr

/-- The record `struct _state` (main.c, lines 22-30). -/
structure state_t where
  id : Nat
  Enter : state_func_t
  Do : state_func_t
  Exit : state_func_t
  delay_ms : Nat
  deriving DecidableEq, Repr

/-- Values of `enum _event` (main.c, lines 32-40), as the integers they are. -/
abbrev event_t := Nat

abbrev b1_evt : event_t := 0
abbrev b2_evt : event_t := 1
abbrev b3_evt : event_t := 2
abbrev timeout_evt : event_t := 3
abbrev no_evt : event_t := 4

/-- The array `leds_cw_pattern` (main.c, line 48). -/
def leds_cw_pattern : List Nat := [0, 1, 3, 2]

/-- The array `leds_ccw_pattern` (main.c, line 49). -/
def leds_ccw_pattern : List Nat := [0, 2, 3, 1]

/-! ## State descriptors and transition table (main.c, lines 187-224) -/

def state0 : state_t :=
  ⟨0, .bsp_board_leds_off, .do_state_0, .bsp_board_leds_off, 200⟩

def state1 : state_t :=
  ⟨1, .bsp_board_leds_off, .do_state_1, .bsp_board_leds_off, 200⟩

def state2 : state_t :=
  ⟨2, .bsp_board_leds_off, .do_state_2, .bsp_board_leds_off, 100⟩

def state3 : state_t :=
  ⟨3, .start_state_3, .do_state_3, .exit_state_3, 200⟩

/-- The array `state_table[4][5]` (main.c, lines 219-224), row by row. -/
def state_table : List (List state_t) :=
  [[state2, state1, state3, state0, state0],
   [state0, state2, state3, state1, state1],
   [state1, state0, state3, state2, state2],
   [state3, state3, state3, state0, state3]]

/-- The C expression `state_table[i][j]`; `none` when an index is outside
the array. -/
def state_table_at (i j : Nat) : Option state_t :=
  match state_table[i]? with
  | some row => row[j]?
  | none => none

/-- The next-state function the control loop applies at main.c line 247,
`state_table[current_state.id][evt]`. -/
def next_state (current_state : state_t) (evt : event_t) : Option state_t :=
  state_table_at current_state.id evt

/-- Runs a list of events through the table from a start state, as the
assignment at line 247 does once per delivered event. -/
def run_events (s : state_t) : List event_t → Option state_t
  | [] => some s
  | e :: es =>
    match next_state s e with
    | some t => run_events t es
    | none => none

/-! ## Event queue (main.c, line 43)

`NRF_ATFIFO_DEF(event_fifo, event_t, 10)` declares a queue of the vendor
library `nrf_atfifo`, whose code is not part of the repository sources. The
three definitions below stand for the library. -/

/-- Modelled from the spec: the queue object behind `event_fifo`, whose type
comes from the absent header nrf_atfifo.h. The spec describes it as "bounded
capacity (10 slots), holding Event values in arrival order"; `items` lists the
stored values, oldest first. -/
structure nrf_atfifo_t where
  items : List event_t
  deriving DecidableEq, Repr

/-- The item count given to `NRF_ATFIFO_DEF` at main.c line 43. -/
def EVENT_FIFO_ITEMS : Nat := 10

/-- Modelled from the spec: the absent library function nrf_atfifo_alloc_put,
the spec's `try_enqueue(event) -> bool`, which "attempts to append event;
returns failure (not fatal) if the queue is full". The boolean is the success
flag; a failed call leaves the queue as it was. -/
def nrf_atfifo_alloc_put (fifo : nrf_atfifo_t) (var : event_t) : Bool × nrf_atfifo_t :=
  if fifo.items.length < EVENT_FIFO_ITEMS then
    (true, ⟨fifo.items ++ [var]⟩)
  else
    (false, fifo)

/-- Modelled from the spec: the absent library function nrf_atfifo_get_free,
the spec's `try_dequeue`, which "removes and returns the oldest event" when
there is one. The C function writes through a pointer: `var` is the value the
pointed-to variable holds before the call, and the second component is what it
holds after, unchanged when the queue is empty. -/
def nrf_atfifo_get_free (fifo : nrf_atfifo_t) (var : event_t) :
    Bool × event_t × nrf_atfifo_t :=
  match fifo.items with
  | [] => (false, var, fifo)
  | oldest :: rest => (true, oldest, ⟨rest⟩)

/-- The queue after `NRF_ATFIFO_INIT(event_fifo)` (main.c, line 113). -/
def event_fifo_init : nrf_atfifo_t := ⟨[]⟩

/-! ## Producers and consumer (main.c, lines 62-96 and 127-134) -/

/-- Board and library constants used by `button_handler`; their values come
from headers outside the repository sources. -/
structure board_t where
  BUTTON_1 : Nat
  BUTTON_2 : Nat
  BUTTON_3 : Nat
  APP_BUTTON_PUSH : Nat
  deriving DecidableEq, Repr

/-- The value of the local `evt` of `button_handler` at the call of
nrf_atfifo_alloc_put (main.c, lines 64-79). `evt_uninit` is whatever the
uninitialised variable holds; the switch has no default case. -/
def button_handler_evt (b : board_t) (evt_uninit : event_t) (pin_num : Nat) : event_t :=
  if pin_num = b.BUTTON_1 then b1_evt
  else if pin_num = b.BUTTON_2 then b2_evt
  else if pin_num = b.BUTTON_3 then b3_evt
  else evt_uninit

/-- The function `button_handler` (main.c, lines 62-83). The result of the
put is discarded, as in the source. -/
def button_handler (b : board_t) (evt_uninit : event_t) (pin_num btn_action : Nat)
    (fifo : nrf_atfifo_t) : nrf_atfifo_t :=
  if btn_action = b.APP_BUTTON_PUSH then
    (nrf_atfifo_alloc_put fifo (button_handler_evt b evt_uninit pin_num)).2
  else
    fifo

/-- The pins of the table `p_buttons` (main.c, lines 85-89), which
`app_button_init` is given at line 123: the pins `button_handler` is
registered for, and so the pin numbers it is called with. -/
def p_buttons (b : board_t) : List Nat := [b.BUTTON_1, b.BUTTON_2, b.BUTTON_3]

/-- The function `timeout_handler` (main.c, lines 91-96). -/
def timeout_handler (fifo : nrf_atfifo_t) : nrf_atfifo_t :=
  let evt := timeout_evt
  (nrf_atfifo_alloc_put fifo evt).2

/-- The function `get_event` (main.c, lines 127-134): the returned value and
the queue after the call. -/
def get_event (fifo : nrf_atfifo_t) : event_t × nrf_atfifo_t :=
  let evt := no_evt
  let r := nrf_atfifo_get_free fifo evt
  (r.2.1, r.2.2)

/-- Enqueues a list of values in order, one put per value, keeping the
success flag of each put. -/
def put_all : nrf_atfifo_t → List event_t → List Bool × nrf_atfifo_t
  | fifo, [] => ([], fifo)
  | fifo, e :: es =>
    let r := nrf_atfifo_alloc_put fifo e
    let rest := put_all r.2 es
    (r.1 :: rest.1, rest.2)

/-- Calls `get_event` n times in a row: the values returned, in call order,
and the queue left behind. -/
def get_events : Nat → nrf_atfifo_t → List event_t × nrf_atfifo_t
  | 0, fifo => ([], fifo)
  | n + 1, fifo =>
    let r := get_event fifo
    let rest := get_events n r.2
    (r.1 :: rest.1, rest.2)

/-! ## Control loop (main.c, lines 136-185 and 226-248)

The loop runs against a machine state: the queue, the three function-local
static variables, the trace of calls made so far, and the interrupts still to
come. Interrupt handlers only touch the queue and the loop only reads the
queue in `get_event`, so the interrupts raised between two polls are served
together, inside the wait that precedes the second poll. -/

/-- An interrupt: a button edge reported to `button_handler` (with the value
its uninitialised local happens to hold), or the expiry of `s3_timeout_timer`
reported to `timeout_handler`. -/
inductive irq_t where
  | button (pin_num btn_action : Nat) (evt_uninit : event_t)
  | timeout
  deriving DecidableEq, Repr

/-- One entry of the trace: a hook called by `main` through a function
pointer, a call into the board or timer library, a wait, a poll together with
the value it returned, or a log flush. -/
inductive call_t where
  | hook (f : state_func_t)
  | bsp_board_leds_off
  | bsp_board_leds_on
  | bsp_board_led_on (led_idx : Nat)
  | app_timer_start
  | led_softblink_init
  | led_softblink_start
  | led_softblink_stop
  | nrf_delay_ms (ms : Nat)
  | get_event (ret : event_t)
  | NRF_LOG_FLUSH
  deriving DecidableEq, Repr

/-- Why a run of the loop produced no result. -/
inductive fault_t where
  | out_of_fuel
  | out_of_bounds
  deriving DecidableEq, Repr

/-- The state the loop runs against. `offset_0`, `turn_on` and `offset_2` are
the statics of `do_state_0`, `do_state_1` and `do_state_2`; the head of
`pending` holds the interrupts raised before the next poll. -/
structure machine_t where
  fifo : nrf_atfifo_t
  offset_0 : Nat
  turn_on : Bool
  offset_2 : Nat
  trace : List call_t
  pending : List (List irq_t)
  deriving DecidableEq, Repr

/-- Appends one call to the trace. -/
def machine_t.emit (m : machine_t) (c : call_t) : machine_t :=
  { m with trace := m.trace ++ [c] }

/-- The handler an interrupt runs, applied to the queue. -/
def serve_irq (b : board_t) (fifo : nrf_atfifo_t) : irq_t → nrf_atfifo_t
  | .button pin_num btn_action evt_uninit =>
    button_handler b evt_uninit pin_num btn_action fifo
  | .timeout => timeout_handler fifo

/-- The function `do_state_0` (main.c, lines 136-145); `offset` is a uint8_t. -/
def do_state_0 (m : machine_t) : Except fault_t machine_t :=
  let m := m.emit .bsp_board_leds_off
  match leds_cw_pattern[m.offset_0]? with
  | none => .error .out_of_bounds
  | some led =>
    let m := m.emit (.bsp_board_led_on led)
    .ok { m with offset_0 := (m.offset_0 + 1) % 256 % 4 }

/-- The function `do_state_1` (main.c, lines 147-154). -/
def do_state_1 (m : machine_t) : Except fault_t machine_t :=
  let m := if m.turn_on then m.emit .bsp_board_leds_on else m.emit .bsp_board_leds_off
  .ok { m with turn_on := !m.turn_on }

/-- The function `do_state_2` (main.c, lines 156-165); `offset` is a uint8_t. -/
def do_state_2 (m : machine_t) : Except fault_t machine_t :=
  let m := m.emit .bsp_board_leds_off
  match leds_ccw_pattern[m.offset_2]? with
  | none => .error .out_of_bounds
  | some led =>
    let m := m.emit (.bsp_board_led_on led)
    .ok { m with offset_2 := (m.offset_2 + 1) % 256 % 4 }

/-- The function `do_state_3` (main.c, lines 167-170). -/
def do_state_3 (m : machine_t) : Except fault_t machine_t :=
  .ok m

/-- The function `start_state_3` (main.c, lines 172-180). -/
def start_state_3 (m : machine_t) : Except fault_t machine_t :=
  let m := m.emit .app_timer_start
  let m := m.emit .led_softblink_init
  .ok (m.emit .led_softblink_start)

/-- The function `exit_state_3` (main.c, lines 182-185). -/
def exit_state_3 (m : machine_t) : Except fault_t machine_t :=
  .ok (m.emit .led_softblink_stop)

/-- A call through a hook pointer, as in `current_state.Enter()`: the call is
recorded, then the body of the function pointed to runs. -/
def call_hook (f : state_func_t) (m : machine_t) : Except fault_t machine_t :=
  let m := m.emit (.hook f)
  match f with
  | .bsp_board_leds_off => .ok (m.emit .bsp_board_leds_off)
  | .do_state_0 => do_state_0 m
  | .do_state_1 => do_state_1 m
  | .do_state_2 => do_state_2 m
  | .do_state_3 => do_state_3 m
  | .start_state_3 => start_state_3 m
  | .exit_state_3 => exit_state_3 m

/-- The queue after the interrupts at the head of the schedule have been
served in order; with an empty schedule no interrupt is raised. -/
def serve_pending (b : board_t) (fifo : nrf_atfifo_t) : List (List irq_t) → nrf_atfifo_t
  | [] => fifo
  | irqs :: _ => irqs.foldl (serve_irq b) fifo

/-- The wait `nrf_delay_ms(ms)` at main.c line 240, during which the
interrupts at the head of `pending` are served. -/
def nrf_delay_ms (b : board_t) (ms : Nat) (m : machine_t) : machine_t :=
  let m := m.emit (.nrf_delay_ms ms)
  { m with fifo := serve_pending b m.fifo m.pending, pending := m.pending.tail }

/-- The poll `evt = get_event()` at main.c line 241, on the machine state. -/
def poll (m : machine_t) : event_t × machine_t :=
  let r := get_event m.fifo
  (r.1, { m with fifo := r.2, trace := m.trace ++ [.get_event r.1] })

/-- The inner `while (true)` of `main` (main.c, lines 238-245): the event that
ended the loop and the machine state at the `break`. One unit of fuel is one
pass through the body. -/
def main_inner (b : board_t) (current_state : state_t) :
    Nat → machine_t → Except fault_t (event_t × machine_t)
  | 0, _ => .error .out_of_fuel
  | fuel + 1, m =>
    match call_hook current_state.Do m with
    | .error e => .error e
    | .ok m =>
      let m := nrf_delay_ms b current_state.delay_ms m
      let r := poll m
      if r.1 ≠ no_evt then
        .ok r
      else
        main_inner b current_state fuel (r.2.emit .NRF_LOG_FLUSH)

/-- One activation of a state, from the call of its Enter hook to the return
of its Exit hook (main.c, lines 236-246): the event that ended the activation
and the machine state after Exit. -/
def main_activation (b : board_t) (current_state : state_t) (fuel : Nat) (m : machine_t) :
    Except fault_t (event_t × machine_t) :=
  match call_hook current_state.Enter m with
  | .error e => .error e
  | .ok m =>
    match main_inner b current_state fuel m with
    | .error e => .error e
    | .ok r =>
      match call_hook current_state.Exit r.2 with
      | .error e => .error e
      | .ok m => .ok (r.1, m)

/-- The outer `while (true)` of `main` (main.c, lines 235-248), cut after
`activations` passes: the value of `current_state` and the machine state then.
Each activation may use up to `fuel` passes of the inner loop. -/
def main_loop (b : board_t) (fuel : Nat) :
    Nat → state_t → machine_t → Except fault_t (state_t × machine_t)
  | 0, current_state, m => .ok (current_state, m)
  | activations + 1, current_state, m =>
    match main_activation b current_state fuel m with
    | .error e => .error e
    | .ok r =>
      match state_table_at current_state.id r.1 with
      | none => .error .out_of_bounds
      | some next => main_loop b fuel activations next r.2

/-- The machine state when `main` reaches its loop: `init_board` has emptied
the queue (main.c, line 113), the statics hold their initial values and
`irqs` is the schedule of interrupts to come. -/
def init_board (irqs : List (List irq_t)) : machine_t :=
  ⟨event_fifo_init, 0, true, 0, [], irqs⟩

/-- The function `main` (main.c, lines 226-248), cut after `activations`
passes of its outer loop. -/
def main (b : board_t) (irqs : List (List irq_t)) (fuel activations : Nat) :
    Except fault_t (state_t × machine_t) :=
  main_loop b fuel activations state0 (init_board irqs)

/-- The values the next n polls return when the loop keeps polling: waits
and polls alternate, and nothing else touches the queue or the schedule. -/
def poll_results (b : board_t) : Nat → nrf_atfifo_t → List (List irq_t) → List event_t
  | 0, _, _ => []
  | n + 1, fifo, pending =>
    let r := get_event (serve_pending b fifo pending)
    r.1 :: poll_results b n r.2 pending.tail

/-- The hook calls, waits and polls of k passes of the inner loop of `main`
in state S whose poll returns `no_evt`. -/
def idle_passes (S : state_t) : Nat → List call_t
  | 0 => []
  | k + 1 =>
    [.hook S.Do, .nrf_delay_ms S.delay_ms, .get_event no_evt] ++ idle_passes S k

/-- The trace entries `main` itself produces: hook calls, waits and polls.
Calls made inside a hook and log flushes are left out. -/
def call_t.is_action : call_t → Bool
  | .hook _ => true
  | .nrf_delay_ms _ => true
  | .get_event _ => true
  | _ => false

/-! ## Runs of the control loop -/

/-- The four descriptors `state0` .. `state3`, in the order of their ids. -/
def canonical_states : List state_t := [state0, state1, state2, state3]

/-- The queue and the interrupt schedule after n rounds of wait and poll. -/
def after_polls (b : board_t) :
    Nat → nrf_atfifo_t → List (List irq_t) → nrf_atfifo_t × List (List irq_t)
  | 0, fifo, pending => (fifo, pending)
  | n + 1, fifo, pending =>
    after_polls b n (get_event (serve_pending b fifo pending)).2 pending.tail

/-- The reads of `state_table` made at main.c line 247 during the first
`activations` passes of the outer loop of `main`: for each read, the value of
`current_state` and of `evt` at that point, in program order. The list stops
where `main_loop` stops. -/
def main_steps (b : board_t) (fuel : Nat) :
    Nat → state_t → machine_t → List (state_t × event_t)
  | 0, _, _ => []
  | activations + 1, current_state, m =>
    match main_activation b current_state fuel m with
    | .error _ => []
    | .ok r =>
      (current_state, r.1) ::
        match state_table_at current_state.id r.1 with
        | none => []
        | some next => main_steps b fuel activations next r.2

/-- The machine states that the operations of `main` can produce from the
state left by `init_board`: hook calls, waits, polls and log flushes, in any
order. Every state `main` passes through is of this kind. -/
inductive reachable (b : board_t) (irqs : List (List irq_t)) : machine_t → Prop where
  | init : reachable b irqs (init_board irqs)
  | hook (f : state_func_t) (m m1 : machine_t) :
      reachable b irqs m → call_hook f m = .ok m1 → reachable b irqs m1
  | wait (ms : Nat) (m : machine_t) :
      reachable b irqs m → reachable b irqs (nrf_delay_ms b ms m)
  | poll (m : machine_t) : reachable b irqs m → reachable b irqs (poll m).2
  | flush (m : machine_t) : reachable b irqs m → reachable b irqs (m.emit .NRF_LOG_FLUSH)

/-- The value an interrupt offers to the queue, if it offers one. -/
def irq_value (b : board_t) : irq_t → Option event_t
  | .button pin_num btn_action evt_uninit =>
    if btn_action = b.APP_BUTTON_PUSH then some (button_handler_evt b evt_uninit pin_num)
    else none
  | .timeout => some timeout_evt

/-- Every value the interrupts of a schedule offer to the queue is one of
`b1_evt`, `b2_evt`, `b3_evt`, `timeout_evt`. -/
def schedule_in_enum (b : board_t) (irqs : List (List irq_t)) : Prop :=
  ∀ batch ∈ irqs, ∀ irq ∈ batch, ∀ v, irq_value b irq = some v → v < no_evt

/-- The machine states in which the loop can make no array read outside its
bounds: both rotation offsets are below 4, every queued value is below
`no_evt`, and so is every value the interrupts still to come will offer. -/
def machine_t.in_enum (b : board_t) (m : machine_t) : Prop :=
  m.offset_0 < 4 ∧ m.offset_2 < 4 ∧ (∀ x ∈ m.fifo.items, x < no_evt) ∧
    schedule_in_enum b m.pending

/-- The states reached from S by the events of a list, one after the other,
S first; the list stops at a read outside the table. -/
def state_path (s : state_t) : List event_t → List state_t
  | [] => [s]
  | e :: es =>
    s :: match next_state s e with
      | some t => state_path t es
      | none => []

/-- The values of the polls recorded in a trace that returned an event. -/
def delivered : List call_t → List event_t
  | [] => []
  | .get_event ret :: rest => if ret ≠ no_evt then ret :: delivered rest else delivered rest
  | _ :: rest => delivered rest

/-! ## The transition table -/

/-- C1: for every state id S in 0..3 and every event E among Button1, Button2,
Button3, Timeout and None, the read `state_table[S][E]` is defined and yields
one of the four descriptors state0..state3, whose id is in 0..3. -/
theorem state_table_total (S : Nat) (E : event_t) (hS : S < 4)
    (hE : E ∈ [b1_evt, b2_evt, b3_evt, timeout_evt, no_evt]) :
    ∃ s, state_table_at S E = some s ∧ s ∈ [state0, state1, state2, state3] ∧ s.id < 4 := by
  simp only [List.mem_cons, List.mem_singleton, List.not_mem_nil, or_false] at hE
  interval_cases S <;> rcases hE with h | h | h | h | h <;> subst h <;>
    exact ⟨_, rfl, by decide, by decide⟩

/-- Instance of C1 at state 2 and the Timeout event. -/
theorem state_table_total_witness :
    (2 < 4 ∧ timeout_evt ∈ [b1_evt, b2_evt, b3_evt, timeout_evt, no_evt]) ∧
      ∃ s, state_table_at 2 timeout_evt = some s ∧
        s ∈ [state0, state1, state2, state3] ∧ s.id < 4 :=
  ⟨⟨by decide, by decide⟩, state_table_total 2 timeout_evt (by decide) (by decide)⟩

/-- C2: for every state id S in 0..3, the entry `state_table[S][no_evt]` is a
descriptor whose id is S again. -/
theorem state_table_no_evt_self (S : Nat) (hS : S < 4) :
    ∃ s, state_table_at S no_evt = some s ∧ s.id = S := by
  interval_cases S <;> exact ⟨_, rfl, rfl⟩

/-- Instance of C2 at state 3. -/
theorem state_table_no_evt_self_witness :
    3 < 4 ∧ ∃ s, state_table_at 3 no_evt = some s ∧ s.id = 3 :=
  ⟨by decide, state_table_no_evt_self 3 (by decide)⟩

/-- C3, as stated, fails: the row of state 0 is not (Button1 to state 0,
Button2 to state 1, Button3 to state 3, Timeout to state 0), because the
Button1 entry is not state 0. -/
theorem state_table_row0_claim_fails :
    ¬ (state_table_at 0 b1_evt = some state0 ∧ state_table_at 0 b2_evt = some state1 ∧
        state_table_at 0 b3_evt = some state3 ∧ state_table_at 0 timeout_evt = some state0) := by
  decide

/-- C3, amended: in the row of state 0, Button1 leads to state 2, Button2 to
state 1, Button3 to state 3 and Timeout to state 0. -/
theorem state_table_row0 :
    state_table_at 0 b1_evt = some state2 ∧ state_table_at 0 b2_evt = some state1 ∧
      state_table_at 0 b3_evt = some state3 ∧ state_table_at 0 timeout_evt = some state0 := by
  decide

/-- C4, as stated, fails: the row of state 1 is not (Button1 to state 0,
Button2 to state 1, Button3 to state 3, Timeout to state 1), because the
Button2 entry is not state 1. -/
theorem state_table_row1_claim_fails :
    ¬ (state_table_at 1 b1_evt = some state0 ∧ state_table_at 1 b2_evt = some state1 ∧
        state_table_at 1 b3_evt = some state3 ∧ state_table_at 1 timeout_evt = some state1) := by
  decide

/-- C4, amended: in the row of state 1, Button1 leads to state 0, Button2 to
state 2, Button3 to state 3 and Timeout to state 1. -/
theorem state_table_row1 :
    state_table_at 1 b1_evt = some state0 ∧ state_table_at 1 b2_evt = some state2 ∧
      state_table_at 1 b3_evt = some state3 ∧ state_table_at 1 timeout_evt = some state1 := by
  decide

/-- C5: in the row of state 2, Button1 leads to state 1, Button2 to state 0,
Button3 to state 3 and Timeout to state 2. -/
theorem state_table_row2 :
    state_table_at 2 b1_evt = some state1 ∧ state_table_at 2 b2_evt = some state0 ∧
      state_table_at 2 b3_evt = some state3 ∧ state_table_at 2 timeout_evt = some state2 := by
  decide

/-- C6, as stated, fails on each of its three parts: in the row of state 3
the Button3 entry is not state 0 and the Timeout entry is not state 3, Button3
is not the one event whose entry differs from state 3, and from state 1 the
events Button3, Timeout do not end in state 3. -/
theorem state_table_row3_claim_fails :
    ¬ (state_table_at 3 b3_evt = some state0) ∧
      ¬ (state_table_at 3 timeout_evt = some state3) ∧
      ¬ ([b1_evt, b2_evt, b3_evt, timeout_evt].filter
          (fun E => state_table_at 3 E != some state3) = [b3_evt]) ∧
      ¬ (run_events state1 [b3_evt, timeout_evt] = some state3) := by
  decide

/-- C6, amended: in the row of state 3, Button1, Button2 and Button3 lead to
state 3 itself and Timeout leads to state 0; Timeout is the only one of the
four events whose entry differs from state 3; and from state 1 the events
Button3, Timeout end in state 0. -/
theorem state_table_row3 :
    (state_table_at 3 b1_evt = some state3 ∧ state_table_at 3 b2_evt = some state3 ∧
      state_table_at 3 b3_evt = some state3 ∧ state_table_at 3 timeout_evt = some state0) ∧
      [b1_evt, b2_evt, b3_evt, timeout_evt].filter
          (fun E => state_table_at 3 E != some state3) = [timeout_evt] ∧
      run_events state1 [b3_evt, timeout_evt] = some state0 := by
  decide

/-! ## The event queue -/

/-- A put into a queue with a free slot succeeds and appends the value. -/
theorem alloc_put_of_lt (fifo : nrf_atfifo_t) (e : event_t)
    (h : fifo.items.length < EVENT_FIFO_ITEMS) :
    nrf_atfifo_alloc_put fifo e = (true, ⟨fifo.items ++ [e]⟩) := by
  simp [nrf_atfifo_alloc_put, h]

/-- A put into a queue holding ten values fails and changes nothing. -/
theorem alloc_put_of_full (fifo : nrf_atfifo_t) (e : event_t)
    (h : fifo.items.length = EVENT_FIFO_ITEMS) :
    nrf_atfifo_alloc_put fifo e = (false, fifo) := by
  simp [nrf_atfifo_alloc_put, h]

/-- Puts that all fit succeed and append their values in order. -/
theorem put_all_of_fits (evts : List event_t) :
    ∀ fifo : nrf_atfifo_t, fifo.items.length + evts.length ≤ EVENT_FIFO_ITEMS →
      put_all fifo evts = (List.replicate evts.length true, ⟨fifo.items ++ evts⟩) := by
  induction evts with
  | nil => intro fifo _; simp [put_all]
  | cons e es ih =>
    intro fifo h
    have hlt : fifo.items.length < EVENT_FIFO_ITEMS := by
      simp only [List.length_cons] at h; omega
    have hfit : (fifo.items ++ [e]).length + es.length ≤ EVENT_FIFO_ITEMS := by
      simp only [List.length_cons, List.length_append, List.length_nil] at h ⊢; omega
    simp [put_all, alloc_put_of_lt fifo e hlt, ih ⟨fifo.items ++ [e]⟩ hfit,
      List.replicate_succ]

/-- A poll of a queue with a stored value returns the oldest one and removes it. -/
theorem get_event_cons (e : event_t) (es : List event_t) :
    get_event ⟨e :: es⟩ = (e, ⟨es⟩) := rfl

/-- A poll of the empty queue returns `no_evt` and leaves the queue empty. -/
theorem get_event_nil : get_event ⟨[]⟩ = (no_evt, ⟨[]⟩) := rfl

/-- Polling the empty queue any number of times returns `no_evt` each time. -/
theorem get_events_nil (n : Nat) :
    get_events n ⟨[]⟩ = (List.replicate n no_evt, ⟨[]⟩) := by
  induction n with
  | zero => rfl
  | succ n ih => simp [get_events, get_event_nil, ih, List.replicate_succ]

/-- Polling a queue as often as it has values, and then n times more, returns
the stored values oldest first, then `no_evt` n times. -/
theorem get_events_drain (items : List event_t) (n : Nat) :
    get_events (items.length + n) ⟨items⟩ = (items ++ List.replicate n no_evt, ⟨[]⟩) := by
  induction items with
  | nil => simpa using get_events_nil n
  | cons e es ih =>
    have hlen : (e :: es).length + n = (es.length + n) + 1 := by
      simp only [List.length_cons]; omega
    rw [hlen]
    simp [get_events, get_event_cons, ih]

/-- C7: the queue is first-in first-out. Any list of at most 10 values put in
order into the empty queue is accepted in full, and as many calls of
`get_event` return exactly those values in the same order and leave the queue
empty. -/
theorem fifo_order (evts : List event_t) (h : evts.length ≤ 10) :
    put_all event_fifo_init evts = (List.replicate evts.length true, ⟨evts⟩) ∧
      get_events evts.length (put_all event_fifo_init evts).2 = (evts, event_fifo_init) := by
  have hput : put_all event_fifo_init evts = (List.replicate evts.length true, ⟨evts⟩) := by
    have := put_all_of_fits evts event_fifo_init (by simpa [event_fifo_init, EVENT_FIFO_ITEMS] using h)
    simpa [event_fifo_init] using this
  refine ⟨hput, ?_⟩
  rw [hput]
  simpa [event_fifo_init] using get_events_drain evts 0

/-- Instance of C7 at the events Button1, Button2, Timeout. -/
theorem fifo_order_witness :
    [b1_evt, b2_evt, timeout_evt].length ≤ 10 ∧
      (put_all event_fifo_init [b1_evt, b2_evt, timeout_evt]
          = (List.replicate [b1_evt, b2_evt, timeout_evt].length true,
              ⟨[b1_evt, b2_evt, timeout_evt]⟩) ∧
        get_events [b1_evt, b2_evt, timeout_evt].length
            (put_all event_fifo_init [b1_evt, b2_evt, timeout_evt]).2
          = ([b1_evt, b2_evt, timeout_evt], event_fifo_init)) :=
  ⟨by decide, fifo_order [b1_evt, b2_evt, timeout_evt] (by decide)⟩

/-- C8: when the queue holds 10 values, a further put fails and leaves the
queue as it was, whichever value is offered; the same holds for the put made
by either interrupt handler; and the calls of `get_event` that follow return
the original 10 values in their order and after them only `no_evt`, so the
rejected value is never delivered. -/
theorem fifo_full_put_dropped (b : board_t) (fifo : nrf_atfifo_t)
    (hfull : fifo.items.length = 10) (e : event_t) (irq : irq_t) (n : Nat) :
    nrf_atfifo_alloc_put fifo e = (false, fifo) ∧
      serve_irq b fifo irq = fifo ∧
      get_events 10 (nrf_atfifo_alloc_put fifo e).2 = (fifo.items, ⟨[]⟩) ∧
      get_events (10 + n) (nrf_atfifo_alloc_put fifo e).2
        = (fifo.items ++ List.replicate n no_evt, ⟨[]⟩) := by
  have hput : ∀ v, nrf_atfifo_alloc_put fifo v = (false, fifo) :=
    fun v => alloc_put_of_full fifo v (by simpa [EVENT_FIFO_ITEMS] using hfull)
  have hdrain : ∀ k, get_events (10 + k) fifo = (fifo.items ++ List.replicate k no_evt, ⟨[]⟩) := by
    intro k
    have := get_events_drain fifo.items k
    rwa [hfull] at this
  refine ⟨hput e, ?_, ?_, ?_⟩
  · cases irq with
    | button pin_num btn_action evt_uninit =>
      simp only [serve_irq, button_handler]
      split
      · rw [hput]
      · rfl
    | timeout => simp only [serve_irq, timeout_handler, hput]
  · rw [hput]; simpa using hdrain 0
  · rw [hput]; exact hdrain n

/-- Instance of C8: ten Button1 events are queued and a Timeout is offered. -/
theorem fifo_full_put_dropped_witness :
    (⟨List.replicate 10 b1_evt⟩ : nrf_atfifo_t).items.length = 10 ∧
      (nrf_atfifo_alloc_put ⟨List.replicate 10 b1_evt⟩ timeout_evt
          = (false, ⟨List.replicate 10 b1_evt⟩) ∧
        serve_irq ⟨13, 14, 15, 1⟩ ⟨List.replicate 10 b1_evt⟩ irq_t.timeout
          = ⟨List.replicate 10 b1_evt⟩ ∧
        get_events 10 (nrf_atfifo_alloc_put ⟨List.replicate 10 b1_evt⟩ timeout_evt).2
          = ((⟨List.replicate 10 b1_evt⟩ : nrf_atfifo_t).items, ⟨[]⟩) ∧
        get_events (10 + 2) (nrf_atfifo_alloc_put ⟨List.replicate 10 b1_evt⟩ timeout_evt).2
          = ((⟨List.replicate 10 b1_evt⟩ : nrf_atfifo_t).items ++ List.replicate 2 no_evt,
              ⟨[]⟩)) :=
  ⟨by decide,
    fifo_full_put_dropped ⟨13, 14, 15, 1⟩ ⟨List.replicate 10 b1_evt⟩ (by decide)
      timeout_evt irq_t.timeout 2⟩

/-- C9: for every n, n calls of `get_event` on the empty queue return `no_evt`
every time and leave the queue empty; a single call does so in particular. -/
theorem get_event_empty_idempotent (n : Nat) :
    get_events n event_fifo_init = (List.replicate n no_evt, event_fifo_init) ∧
      get_event event_fifo_init = (no_evt, event_fifo_init) :=
  ⟨get_events_nil n, get_event_nil⟩

/-! ## One activation of the control loop -/

/-- A hook called with both rotation offsets below 4 returns. It leaves the
queue and the interrupt schedule alone, keeps the offsets below 4, and adds to
the trace its own call followed by library calls only. -/
theorem call_hook_ok (f : state_func_t) (m : machine_t)
    (h0 : m.offset_0 < 4) (h2 : m.offset_2 < 4) :
    ∃ m1 inner, call_hook f m = .ok m1 ∧ m1.fifo = m.fifo ∧ m1.pending = m.pending ∧
      m1.offset_0 < 4 ∧ m1.offset_2 < 4 ∧ m1.trace = m.trace ++ (.hook f :: inner) ∧
      inner.filter call_t.is_action = [] := by
  obtain ⟨fifo, o0, t, o2, tr, p⟩ := m
  simp only at h0 h2
  cases f with
  | bsp_board_leds_off =>
    exact ⟨_, [.bsp_board_leds_off], rfl, rfl, rfl, h0, h2, by simp [machine_t.emit], rfl⟩
  | do_state_0 =>
    interval_cases o0
    · exact ⟨⟨fifo, 1, t, o2, tr ++ [.hook .do_state_0, .bsp_board_leds_off, .bsp_board_led_on 0], p⟩,
        [.bsp_board_leds_off, .bsp_board_led_on 0],
        by simp [call_hook, do_state_0, machine_t.emit, leds_cw_pattern], rfl, rfl, by simp, h2,
        by simp, rfl⟩
    · exact ⟨⟨fifo, 2, t, o2, tr ++ [.hook .do_state_0, .bsp_board_leds_off, .bsp_board_led_on 1], p⟩,
        [.bsp_board_leds_off, .bsp_board_led_on 1],
        by simp [call_hook, do_state_0, machine_t.emit, leds_cw_pattern], rfl, rfl, by simp, h2,
        by simp, rfl⟩
    · exact ⟨⟨fifo, 3, t, o2, tr ++ [.hook .do_state_0, .bsp_board_leds_off, .bsp_board_led_on 3], p⟩,
        [.bsp_board_leds_off, .bsp_board_led_on 3],
        by simp [call_hook, do_state_0, machine_t.emit, leds_cw_pattern], rfl, rfl, by simp, h2,
        by simp, rfl⟩
    · exact ⟨⟨fifo, 0, t, o2, tr ++ [.hook .do_state_0, .bsp_board_leds_off, .bsp_board_led_on 2], p⟩,
        [.bsp_board_leds_off, .bsp_board_led_on 2],
        by simp [call_hook, do_state_0, machine_t.emit, leds_cw_pattern], rfl, rfl, by simp, h2,
        by simp, rfl⟩
  | do_state_1 =>
    cases t
    · exact ⟨_, [.bsp_board_leds_off], rfl, rfl, rfl, h0, h2, by simp [machine_t.emit], rfl⟩
    · exact ⟨_, [.bsp_board_leds_on], rfl, rfl, rfl, h0, h2, by simp [machine_t.emit], rfl⟩
  | do_state_2 =>
    interval_cases o2
    · exact ⟨⟨fifo, o0, t, 1, tr ++ [.hook .do_state_2, .bsp_board_leds_off, .bsp_board_led_on 0], p⟩,
        [.bsp_board_leds_off, .bsp_board_led_on 0],
        by simp [call_hook, do_state_2, machine_t.emit, leds_ccw_pattern], rfl, rfl, h0, by simp,
        by simp, rfl⟩
    · exact ⟨⟨fifo, o0, t, 2, tr ++ [.hook .do_state_2, .bsp_board_leds_off, .bsp_board_led_on 2], p⟩,
        [.bsp_board_leds_off, .bsp_board_led_on 2],
        by simp [call_hook, do_state_2, machine_t.emit, leds_ccw_pattern], rfl, rfl, h0, by simp,
        by simp, rfl⟩
    · exact ⟨⟨fifo, o0, t, 3, tr ++ [.hook .do_state_2, .bsp_board_leds_off, .bsp_board_led_on 3], p⟩,
        [.bsp_board_leds_off, .bsp_board_led_on 3],
        by simp [call_hook, do_state_2, machine_t.emit, leds_ccw_pattern], rfl, rfl, h0, by simp,
        by simp, rfl⟩
    · exact ⟨⟨fifo, o0, t, 0, tr ++ [.hook .do_state_2, .bsp_board_leds_off, .bsp_board_led_on 1], p⟩,
        [.bsp_board_leds_off, .bsp_board_led_on 1],
        by simp [call_hook, do_state_2, machine_t.emit, leds_ccw_pattern], rfl, rfl, h0, by simp,
        by simp, rfl⟩
  | do_state_3 =>
    exact ⟨_, [], rfl, rfl, rfl, h0, h2, by simp [machine_t.emit], rfl⟩
  | start_state_3 =>
    exact ⟨_, [.app_timer_start, .led_softblink_init, .led_softblink_start], rfl, rfl, rfl,
      h0, h2, by simp [machine_t.emit], rfl⟩
  | exit_state_3 =>
    exact ⟨_, [.led_softblink_stop], rfl, rfl, rfl, h0, h2, by simp [machine_t.emit], rfl⟩

/-- The machine state after the wait and the poll that follow a hook call,
in terms of the state before them. -/
theorem poll_after_delay (b : board_t) (ms : Nat) (m : machine_t) :
    (poll (nrf_delay_ms b ms m)).1 = (get_event (serve_pending b m.fifo m.pending)).1 ∧
      (poll (nrf_delay_ms b ms m)).2.fifo = (get_event (serve_pending b m.fifo m.pending)).2 ∧
      (poll (nrf_delay_ms b ms m)).2.pending = m.pending.tail ∧
      (poll (nrf_delay_ms b ms m)).2.offset_0 = m.offset_0 ∧
      (poll (nrf_delay_ms b ms m)).2.offset_2 = m.offset_2 ∧
      (poll (nrf_delay_ms b ms m)).2.trace
        = m.trace ++ [.nrf_delay_ms ms,
            .get_event (get_event (serve_pending b m.fifo m.pending)).1] := by
  simp [poll, nrf_delay_ms, machine_t.emit]

/-- The inner loop of `main` in state S, started where the next polls return
`no_evt` k times and then an event E other than `no_evt`, leaves with E after
k + 1 passes, given that much fuel. The trace grows by k passes ending in a
`no_evt` poll and one pass ending in the poll that returns E. -/
theorem main_inner_returns (b : board_t) (S : state_t) (E : event_t) (hE : E ≠ no_evt) :
    ∀ (k fuel : Nat) (m : machine_t), m.offset_0 < 4 → m.offset_2 < 4 →
      poll_results b (k + 1) m.fifo m.pending = List.replicate k no_evt ++ [E] →
      k + 1 ≤ fuel →
      ∃ m1 added, main_inner b S fuel m = .ok (E, m1) ∧ m1.offset_0 < 4 ∧ m1.offset_2 < 4 ∧
        m1.trace = m.trace ++ added ∧
        added.filter call_t.is_action
          = idle_passes S k ++ [.hook S.Do, .nrf_delay_ms S.delay_ms, .get_event E] := by
  intro k
  induction k with
  | zero =>
    intro fuel m h0 h2 hpolls hfuel
    obtain ⟨fuel, rfl⟩ : ∃ f, fuel = f + 1 := ⟨fuel - 1, by omega⟩
    obtain ⟨m1, inner, hcall, hf, hp, h0a, h2a, htr, hfil⟩ := call_hook_ok S.Do m h0 h2
    obtain ⟨q1, q2, q3, q4, q5, q6⟩ := poll_after_delay b S.delay_ms m1
    rw [hf, hp] at q1 q2 q6
    rw [hp] at q3
    simp only [poll_results, List.replicate, List.nil_append, List.cons.injEq, and_true] at hpolls
    rw [hpolls] at q1 q6
    refine ⟨(poll (nrf_delay_ms b S.delay_ms m1)).2,
      (.hook S.Do :: inner) ++ [.nrf_delay_ms S.delay_ms, .get_event E], ?_, ?_, ?_, ?_, ?_⟩
    · simp only [main_inner, hcall, q1, ne_eq, hE, not_false_eq_true, if_true]
      exact congrArg Except.ok (Prod.ext q1 rfl)
    · rw [q4]; exact h0a
    · rw [q5]; exact h2a
    · rw [q6, htr, List.append_assoc]
    · simp [List.filter_append, hfil, call_t.is_action, idle_passes]
  | succ k ih =>
    intro fuel m h0 h2 hpolls hfuel
    obtain ⟨fuel, rfl⟩ : ∃ f, fuel = f + 1 := ⟨fuel - 1, by omega⟩
    obtain ⟨m1, inner, hcall, hf, hp, h0a, h2a, htr, hfil⟩ := call_hook_ok S.Do m h0 h2
    obtain ⟨q1, q2, q3, q4, q5, q6⟩ := poll_after_delay b S.delay_ms m1
    rw [hf, hp] at q1 q2 q6
    rw [hp] at q3
    rw [poll_results, List.replicate_succ, List.cons_append] at hpolls
    simp only [List.cons.injEq] at hpolls
    obtain ⟨hhead, htail⟩ := hpolls
    rw [hhead] at q1 q6
    have hnext := ih fuel ((poll (nrf_delay_ms b S.delay_ms m1)).2.emit .NRF_LOG_FLUSH)
      (by simpa [machine_t.emit, q4] using h0a) (by simpa [machine_t.emit, q5] using h2a)
      (by simpa [machine_t.emit, q2, q3] using htail) (by omega)
    obtain ⟨m2, added, hrun, h0b, h2b, htr2, hfil2⟩ := hnext
    refine ⟨m2, (.hook S.Do :: inner) ++ [.nrf_delay_ms S.delay_ms, .get_event no_evt]
      ++ [.NRF_LOG_FLUSH] ++ added, ?_, h0b, h2b, ?_, ?_⟩
    · simp only [main_inner, hcall, q1, ne_eq, not_true_eq_false, if_false]
      exact hrun
    · rw [htr2]
      simp [machine_t.emit, q6, htr, List.append_assoc]
    · simp [List.filter_append, hfil, hfil2, call_t.is_action, idle_passes]

/-- C10: one activation of the control loop. For every state S and every
k, when the next polls of the queue return `no_evt` k times and then an event
E other than `no_evt`, the activation of S returns with E (given fuel for
k + 1 passes) and the calls `main` made during it are exactly: S.Enter once;
then, k + 1 times, S.Do, the wait of S.delay_ms and a poll, the first k polls
returning `no_evt` and the last one E; then S.Exit once. With k = 0, an event
pending on entry, S.Do still runs once. -/
theorem activation_actions (b : board_t) (S : state_t) (k : Nat) (E : event_t) (fuel : Nat)
    (m : machine_t) (h0 : m.offset_0 < 4) (h2 : m.offset_2 < 4) (hE : E ≠ no_evt)
    (hpolls : poll_results b (k + 1) m.fifo m.pending = List.replicate k no_evt ++ [E])
    (hfuel : k + 1 ≤ fuel) :
    ∃ m1 added, main_activation b S fuel m = .ok (E, m1) ∧ m1.trace = m.trace ++ added ∧
      added.filter call_t.is_action
        = [.hook S.Enter] ++ idle_passes S k
          ++ [.hook S.Do, .nrf_delay_ms S.delay_ms, .get_event E] ++ [.hook S.Exit] := by
  obtain ⟨ma, ina, hca, hfa, hpa, h0a, h2a, htra, hfila⟩ := call_hook_ok S.Enter m h0 h2
  obtain ⟨mb, addb, hrun, h0b, h2b, htrb, hfilb⟩ :=
    main_inner_returns b S E hE k fuel ma h0a h2a (by rw [hfa, hpa]; exact hpolls) hfuel
  obtain ⟨mc, inc, hcc, -, -, -, -, htrc, hfilc⟩ := call_hook_ok S.Exit mb h0b h2b
  refine ⟨mc, (.hook S.Enter :: ina) ++ addb ++ (.hook S.Exit :: inc), ?_, ?_, ?_⟩
  · simp only [main_activation, hca, hrun, hcc]
  · rw [htrc, htrb, htra]; simp [List.append_assoc]
  · simp [List.filter_append, hfila, hfilb, hfilc, call_t.is_action]

/-- Instance of C10: state 0 is entered with the queue empty, two polls find
nothing, and a push of button 2 is served before the third poll. -/
theorem activation_actions_witness :
    ((init_board [[], [], [.button 14 1 0]]).offset_0 < 4 ∧
      (init_board [[], [], [.button 14 1 0]]).offset_2 < 4 ∧
      b2_evt ≠ no_evt ∧
      poll_results ⟨13, 14, 15, 1⟩ (2 + 1) (init_board [[], [], [.button 14 1 0]]).fifo
          (init_board [[], [], [.button 14 1 0]]).pending
        = List.replicate 2 no_evt ++ [b2_evt] ∧
      2 + 1 ≤ 3) ∧
    ∃ m1 added,
      main_activation ⟨13, 14, 15, 1⟩ state0 3 (init_board [[], [], [.button 14 1 0]])
        = .ok (b2_evt, m1) ∧
      m1.trace = (init_board [[], [], [.button 14 1 0]]).trace ++ added ∧
      added.filter call_t.is_action
        = [.hook state0.Enter] ++ idle_passes state0 2
          ++ [.hook state0.Do, .nrf_delay_ms state0.delay_ms, .get_event b2_evt]
          ++ [.hook state0.Exit] :=
  ⟨⟨by decide, by decide, by decide, by decide, by decide⟩,
    activation_actions ⟨13, 14, 15, 1⟩ state0 2 b2_evt 3 (init_board [[], [], [.button 14 1 0]])
      (by decide) (by decide) (by decide) (by decide) (by decide)⟩

/-! ## The interrupt handlers -/

/-- C15: with three distinct button pins, a push on pin BUTTON_1, BUTTON_2 or
BUTTON_3 makes `button_handler` do exactly what one put of `b1_evt`, `b2_evt`
or `b3_evt` does, whatever its uninitialised local holds; and an action other
than a push leaves the queue as it was, on any pin. -/
theorem button_handler_mapping (b : board_t) (evt_uninit : event_t) (fifo : nrf_atfifo_t)
    (h12 : b.BUTTON_1 ≠ b.BUTTON_2) (h13 : b.BUTTON_1 ≠ b.BUTTON_3)
    (h23 : b.BUTTON_2 ≠ b.BUTTON_3) :
    button_handler b evt_uninit b.BUTTON_1 b.APP_BUTTON_PUSH fifo
        = (nrf_atfifo_alloc_put fifo b1_evt).2 ∧
      button_handler b evt_uninit b.BUTTON_2 b.APP_BUTTON_PUSH fifo
        = (nrf_atfifo_alloc_put fifo b2_evt).2 ∧
      button_handler b evt_uninit b.BUTTON_3 b.APP_BUTTON_PUSH fifo
        = (nrf_atfifo_alloc_put fifo b3_evt).2 ∧
      ∀ pin_num btn_action, btn_action ≠ b.APP_BUTTON_PUSH →
        button_handler b evt_uninit pin_num btn_action fifo = fifo := by
  refine ⟨?_, ?_, ?_, ?_⟩
  · simp [button_handler, button_handler_evt]
  · simp [button_handler, button_handler_evt, Ne.symm h12]
  · simp [button_handler, button_handler_evt, Ne.symm h13, Ne.symm h23]
  · intro pin_num btn_action hne
    simp [button_handler, hne]

/-- Instance of C15 on a board with the pins 13, 14, 15 and push action 1. -/
theorem button_handler_mapping_witness :
    ((⟨13, 14, 15, 1⟩ : board_t).BUTTON_1 ≠ (⟨13, 14, 15, 1⟩ : board_t).BUTTON_2 ∧
      (⟨13, 14, 15, 1⟩ : board_t).BUTTON_1 ≠ (⟨13, 14, 15, 1⟩ : board_t).BUTTON_3 ∧
      (⟨13, 14, 15, 1⟩ : board_t).BUTTON_2 ≠ (⟨13, 14, 15, 1⟩ : board_t).BUTTON_3) ∧
    (button_handler ⟨13, 14, 15, 1⟩ 9 (⟨13, 14, 15, 1⟩ : board_t).BUTTON_1
          (⟨13, 14, 15, 1⟩ : board_t).APP_BUTTON_PUSH event_fifo_init
        = (nrf_atfifo_alloc_put event_fifo_init b1_evt).2 ∧
      button_handler ⟨13, 14, 15, 1⟩ 9 (⟨13, 14, 15, 1⟩ : board_t).BUTTON_2
          (⟨13, 14, 15, 1⟩ : board_t).APP_BUTTON_PUSH event_fifo_init
        = (nrf_atfifo_alloc_put event_fifo_init b2_evt).2 ∧
      button_handler ⟨13, 14, 15, 1⟩ 9 (⟨13, 14, 15, 1⟩ : board_t).BUTTON_3
          (⟨13, 14, 15, 1⟩ : board_t).APP_BUTTON_PUSH event_fifo_init
        = (nrf_atfifo_alloc_put event_fifo_init b3_evt).2 ∧
      ∀ pin_num btn_action, btn_action ≠ (⟨13, 14, 15, 1⟩ : board_t).APP_BUTTON_PUSH →
        button_handler ⟨13, 14, 15, 1⟩ 9 pin_num btn_action event_fifo_init
          = event_fifo_init) :=
  ⟨⟨by decide, by decide, by decide⟩,
    button_handler_mapping ⟨13, 14, 15, 1⟩ 9 event_fifo_init (by decide) (by decide)
      (by decide)⟩

/-- C16: `no_evt` is never enqueued by a producer. For every pin number
`button_handler` is registered for and every button action, the value the
handler holds in `evt` at its put is one of `b1_evt`, `b2_evt`, `b3_evt`,
whatever the uninitialised local held, and so is not `no_evt`; the handler
puts that value on a push and puts nothing otherwise. `timeout_handler` puts
`timeout_evt`. Hence a queue holding only Button1, Button2, Button3 and
Timeout values still does after either handler has run. -/
theorem producers_enqueue_events_only (b : board_t) (evt_uninit : event_t)
    (pin_num btn_action : Nat) (fifo : nrf_atfifo_t) (hpin : pin_num ∈ p_buttons b) :
    button_handler_evt b evt_uninit pin_num ∈ [b1_evt, b2_evt, b3_evt] ∧
      button_handler_evt b evt_uninit pin_num ≠ no_evt ∧
      (btn_action = b.APP_BUTTON_PUSH →
        button_handler b evt_uninit pin_num btn_action fifo
          = (nrf_atfifo_alloc_put fifo (button_handler_evt b evt_uninit pin_num)).2) ∧
      (btn_action ≠ b.APP_BUTTON_PUSH →
        button_handler b evt_uninit pin_num btn_action fifo = fifo) ∧
      (∀ v, irq_value b (.button pin_num btn_action evt_uninit) = some v →
        v ∈ [b1_evt, b2_evt, b3_evt, timeout_evt] ∧ v ≠ no_evt) ∧
      timeout_handler fifo = (nrf_atfifo_alloc_put fifo timeout_evt).2 ∧
      (∀ v, irq_value b .timeout = some v →
        v ∈ [b1_evt, b2_evt, b3_evt, timeout_evt] ∧ v ≠ no_evt) ∧
      ((∀ x ∈ fifo.items, x ∈ [b1_evt, b2_evt, b3_evt, timeout_evt]) →
        (∀ x ∈ (button_handler b evt_uninit pin_num btn_action fifo).items,
          x ∈ [b1_evt, b2_evt, b3_evt, timeout_evt]) ∧
        (∀ x ∈ (timeout_handler fifo).items, x ∈ [b1_evt, b2_evt, b3_evt, timeout_evt])) := by
  have hevt : button_handler_evt b evt_uninit pin_num ∈ [b1_evt, b2_evt, b3_evt] := by
    simp only [p_buttons, List.mem_cons, List.mem_singleton, List.not_mem_nil, or_false] at hpin
    unfold button_handler_evt
    by_cases h1 : pin_num = b.BUTTON_1
    · rw [if_pos h1]; decide
    · by_cases h2 : pin_num = b.BUTTON_2
      · rw [if_neg h1, if_pos h2]; decide
      · have h3 : pin_num = b.BUTTON_3 := by
          rcases hpin with h | h | h
          · exact absurd h h1
          · exact absurd h h2
          · exact h
        rw [if_neg h1, if_neg h2, if_pos h3]; decide
  have hne : button_handler_evt b evt_uninit pin_num ≠ no_evt := by
    intro h
    rw [h] at hevt
    revert hevt
    decide
  have hput : ∀ (q : nrf_atfifo_t) (v : event_t),
      v ∈ [b1_evt, b2_evt, b3_evt, timeout_evt] →
      (∀ x ∈ q.items, x ∈ [b1_evt, b2_evt, b3_evt, timeout_evt]) →
      ∀ x ∈ (nrf_atfifo_alloc_put q v).2.items, x ∈ [b1_evt, b2_evt, b3_evt, timeout_evt] := by
    intro q v hv hq x hx
    unfold nrf_atfifo_alloc_put at hx
    split at hx
    · simp only [List.mem_append, List.mem_singleton] at hx
      rcases hx with hx | hx
      · exact hq x hx
      · rw [hx]; exact hv
    · exact hq x hx
  have hwide : button_handler_evt b evt_uninit pin_num ∈ [b1_evt, b2_evt, b3_evt, timeout_evt] := by
    simp only [List.mem_cons, List.mem_singleton, List.not_mem_nil, or_false] at hevt ⊢
    rcases hevt with h | h | h
    · exact Or.inl h
    · exact Or.inr (Or.inl h)
    · exact Or.inr (Or.inr (Or.inl h))
  refine ⟨hevt, hne, ?_, ?_, ?_, rfl, ?_, ?_⟩
  · intro hpush
    simp [button_handler, hpush]
  · intro hnot
    simp [button_handler, hnot]
  · intro v hv
    simp only [irq_value] at hv
    split at hv
    · simp only [Option.some.injEq] at hv
      rw [← hv]
      exact ⟨hwide, hne⟩
    · cases hv
  · intro v hv
    simp only [irq_value, Option.some.injEq] at hv
    rw [← hv]
    exact ⟨by decide, by decide⟩
  · intro hq
    constructor
    · by_cases hpush : btn_action = b.APP_BUTTON_PUSH
      · simp only [button_handler, hpush, if_true]
        exact hput fifo _ hwide hq
      · simp only [button_handler, hpush, if_false]
        exact hq
    · exact hput fifo timeout_evt (by decide) hq

/-- Instance of C16: a push on pin 14, the second of the registered pins 13,
14, 15, with the uninitialised local holding 7. -/
theorem producers_enqueue_events_only_witness :
    14 ∈ p_buttons ⟨13, 14, 15, 1⟩ ∧
      (button_handler_evt ⟨13, 14, 15, 1⟩ 7 14 ∈ [b1_evt, b2_evt, b3_evt] ∧
        button_handler_evt ⟨13, 14, 15, 1⟩ 7 14 ≠ no_evt ∧
        (1 = (⟨13, 14, 15, 1⟩ : board_t).APP_BUTTON_PUSH →
          button_handler ⟨13, 14, 15, 1⟩ 7 14 1 event_fifo_init
            = (nrf_atfifo_alloc_put event_fifo_init
                (button_handler_evt ⟨13, 14, 15, 1⟩ 7 14)).2) ∧
        (1 ≠ (⟨13, 14, 15, 1⟩ : board_t).APP_BUTTON_PUSH →
          button_handler ⟨13, 14, 15, 1⟩ 7 14 1 event_fifo_init = event_fifo_init) ∧
        (∀ v, irq_value ⟨13, 14, 15, 1⟩ (.button 14 1 7) = some v →
          v ∈ [b1_evt, b2_evt, b3_evt, timeout_evt] ∧ v ≠ no_evt) ∧
        timeout_handler event_fifo_init
          = (nrf_atfifo_alloc_put event_fifo_init timeout_evt).2 ∧
        (∀ v, irq_value ⟨13, 14, 15, 1⟩ .timeout = some v →
          v ∈ [b1_evt, b2_evt, b3_evt, timeout_evt] ∧ v ≠ no_evt) ∧
        ((∀ x ∈ event_fifo_init.items, x ∈ [b1_evt, b2_evt, b3_evt, timeout_evt]) →
          (∀ x ∈ (button_handler ⟨13, 14, 15, 1⟩ 7 14 1 event_fifo_init).items,
            x ∈ [b1_evt, b2_evt, b3_evt, timeout_evt]) ∧
          (∀ x ∈ (timeout_handler event_fifo_init).items,
            x ∈ [b1_evt, b2_evt, b3_evt, timeout_evt]))) :=
  ⟨by decide, producers_enqueue_events_only ⟨13, 14, 15, 1⟩ 7 14 1 event_fifo_init (by decide)⟩

/-! ## The state graph -/

/-- C20: the state graph is strongly connected. For any two of the four
states S and T there is a list of events among Button1, Button2, Button3 and
Timeout that leads from S to T through `state_table`; so every state can be
reached from state 0, and state 0 from every state. -/
theorem state_graph_strongly_connected (S T : state_t)
    (hS : S ∈ canonical_states) (hT : T ∈ canonical_states) :
    ∃ es : List event_t, (∀ e ∈ es, e ∈ [b1_evt, b2_evt, b3_evt, timeout_evt]) ∧
      run_events S es = some T := by
  simp only [canonical_states, List.mem_cons, List.mem_singleton, List.not_mem_nil,
    or_false] at hS hT
  rcases hS with rfl | rfl | rfl | rfl <;> rcases hT with rfl | rfl | rfl | rfl <;>
    first
    | exact ⟨[], by decide, rfl⟩
    | exact ⟨[b1_evt], by decide, rfl⟩
    | exact ⟨[b2_evt], by decide, rfl⟩
    | exact ⟨[b3_evt], by decide, rfl⟩
    | exact ⟨[timeout_evt], by decide, rfl⟩
    | exact ⟨[timeout_evt, b1_evt], by decide, rfl⟩
    | exact ⟨[timeout_evt, b2_evt], by decide, rfl⟩

/-- Instance of C20: from state 3 to state 2. -/
theorem state_graph_strongly_connected_witness :
    (state3 ∈ canonical_states ∧ state2 ∈ canonical_states) ∧
      ∃ es : List event_t, (∀ e ∈ es, e ∈ [b1_evt, b2_evt, b3_evt, timeout_evt]) ∧
        run_events state3 es = some state2 :=
  ⟨⟨by decide, by decide⟩, state_graph_strongly_connected state3 state2 (by decide) (by decide)⟩

/-! ## Hooks, statics and the states the loop can reach -/

/-- What a hook call that returns has done: the trace has grown by the call
and by library calls only, the timer was armed once by `start_state_3` and not
at all by any other hook, each static was changed by its own Do hook only, and
the queue and the interrupt schedule are as before. -/
theorem call_hook_effect (f : state_func_t) (m m1 : machine_t)
    (h : call_hook f m = .ok m1) :
    ∃ inner, m1.trace = m.trace ++ (.hook f :: inner) ∧
      (∀ g, call_t.hook g ∉ inner) ∧
      (∀ ms, call_t.nrf_delay_ms ms ∉ inner) ∧
      (∀ r, call_t.get_event r ∉ inner) ∧
      inner.count .app_timer_start = (if f = .start_state_3 then 1 else 0) ∧
      m1.offset_0 = (if f = .do_state_0 then (m.offset_0 + 1) % 256 % 4 else m.offset_0) ∧
      m1.offset_2 = (if f = .do_state_2 then (m.offset_2 + 1) % 256 % 4 else m.offset_2) ∧
      m1.turn_on = (if f = .do_state_1 then !m.turn_on else m.turn_on) ∧
      m1.fifo = m.fifo ∧ m1.pending = m.pending := by
  cases f with
  | bsp_board_leds_off =>
    simp only [call_hook, machine_t.emit, Except.ok.injEq] at h
    subst h
    refine ⟨[.bsp_board_leds_off], ?_⟩
    simp
  | do_state_0 =>
    simp only [call_hook, do_state_0, machine_t.emit] at h
    split at h
    · cases h
    · rename_i led hled
      simp only [Except.ok.injEq] at h
      subst h
      refine ⟨[.bsp_board_leds_off, .bsp_board_led_on led], ?_⟩
      simp
  | do_state_1 =>
    simp only [call_hook, do_state_1, machine_t.emit, Except.ok.injEq] at h
    subst h
    cases ht : m.turn_on
    · refine ⟨[.bsp_board_leds_off], ?_⟩
      simp [ht]
    · refine ⟨[.bsp_board_leds_on], ?_⟩
      simp [ht]
  | do_state_2 =>
    simp only [call_hook, do_state_2, machine_t.emit] at h
    split at h
    · cases h
    · rename_i led hled
      simp only [Except.ok.injEq] at h
      subst h
      refine ⟨[.bsp_board_leds_off, .bsp_board_led_on led], ?_⟩
      simp
  | do_state_3 =>
    simp only [call_hook, do_state_3, machine_t.emit, Except.ok.injEq] at h
    subst h
    refine ⟨[], ?_⟩
    simp
  | start_state_3 =>
    simp only [call_hook, start_state_3, machine_t.emit, Except.ok.injEq] at h
    subst h
    refine ⟨[.app_timer_start, .led_softblink_init, .led_softblink_start], ?_⟩
    simp
  | exit_state_3 =>
    simp only [call_hook, exit_state_3, machine_t.emit, Except.ok.injEq] at h
    subst h
    refine ⟨[.led_softblink_stop], ?_⟩
    simp

/-- The number of calls of hook g recorded in a trace, after one more hook
call and the library calls made inside it. -/
theorem count_hook_step (tr inner : List call_t) (f g : state_func_t)
    (hinner : ∀ g, call_t.hook g ∉ inner) :
    (tr ++ (.hook f :: inner)).count (.hook g) = tr.count (.hook g) + (if f = g then 1 else 0) := by
  have h0 : inner.count (.hook g) = 0 := List.count_eq_zero.mpr (hinner g)
  by_cases hfg : f = g
  · subst hfg; simp [List.count_cons, h0]
  · simp [List.count_cons, h0, hfg]

/-- In every state the loop can reach, each static is determined by the number
of calls of its Do hook recorded in the trace: the two rotation offsets are
the call counts modulo 4, and `turn_on` holds when the call count is even. -/
theorem reachable_statics (b : board_t) (irqs : List (List irq_t)) (m : machine_t)
    (hm : reachable b irqs m) :
    m.offset_0 = m.trace.count (.hook .do_state_0) % 4 ∧
      m.offset_2 = m.trace.count (.hook .do_state_2) % 4 ∧
      m.turn_on = decide (m.trace.count (.hook .do_state_1) % 2 = 0) := by
  induction hm with
  | init => simp [init_board]
  | hook f m m1 _ hcall ih =>
    obtain ⟨inner, htr, hh, -, -, -, h0, h2, ht, -, -⟩ := call_hook_effect f m m1 hcall
    obtain ⟨i0, i2, it⟩ := ih
    rw [htr, count_hook_step _ _ _ _ hh, count_hook_step _ _ _ _ hh,
      count_hook_step _ _ _ _ hh, h0, h2, ht]
    refine ⟨?_, ?_, ?_⟩
    · by_cases hf : f = .do_state_0
      · simp only [hf, if_true]; omega
      · simp only [hf, if_false, Nat.add_zero]; exact i0
    · by_cases hf : f = .do_state_2
      · simp only [hf, if_true]; omega
      · simp only [hf, if_false, Nat.add_zero]; exact i2
    · by_cases hf : f = .do_state_1
      · simp only [hf, if_true, it]
        rcases Nat.mod_two_eq_zero_or_one (List.count (call_t.hook .do_state_1) m.trace)
          with h | h
        · have : (List.count (call_t.hook .do_state_1) m.trace + 1) % 2 = 1 := by omega
          simp [h, this]
        · have : (List.count (call_t.hook .do_state_1) m.trace + 1) % 2 = 0 := by omega
          simp [h, this]
      · simp only [hf, if_false, Nat.add_zero]; exact it
  | wait ms m _ ih => simpa [nrf_delay_ms, machine_t.emit, List.count_append] using ih
  | poll m _ ih => simpa [poll, List.count_append] using ih
  | flush m _ ih => simpa [machine_t.emit, List.count_append] using ih

/-- C12: the rotation of state 0. In any state the loop can reach, let n be
the number of calls of `do_state_0` made since process start (in whichever
activations). The next call, call number n, returns; it turns all lights off
and then lights the single light `leds_cw_pattern[n mod 4]`, where the
pattern is 0, 1, 3, 2; and it leaves the offset at (n + 1) mod 4. The first
three calls after start-up light the lights 0, 1 and 3. -/
theorem do_state_0_rotation (b : board_t) (irqs : List (List irq_t)) (m : machine_t)
    (hm : reachable b irqs m) :
    leds_cw_pattern = [0, 1, 3, 2] ∧
      (∃ led m1, leds_cw_pattern[m.trace.count (.hook .do_state_0) % 4]? = some led ∧
        call_hook .do_state_0 m = .ok m1 ∧
        m1.trace = m.trace ++ [.hook .do_state_0, .bsp_board_leds_off, .bsp_board_led_on led] ∧
        m1.offset_0 = (m.trace.count (.hook .do_state_0) + 1) % 4 ∧
        reachable b irqs m1) ∧
      (call_hook .do_state_0 (init_board irqs) >>= call_hook .do_state_0
          >>= call_hook .do_state_0).map machine_t.trace
        = .ok [.hook .do_state_0, .bsp_board_leds_off, .bsp_board_led_on 0,
            .hook .do_state_0, .bsp_board_leds_off, .bsp_board_led_on 1,
            .hook .do_state_0, .bsp_board_leds_off, .bsp_board_led_on 3] := by
  refine ⟨rfl, ?_, rfl⟩
  obtain ⟨h0, -, -⟩ := reachable_statics b irqs m hm
  have hlt : m.trace.count (.hook .do_state_0) % 4 < 4 := Nat.mod_lt _ (by decide)
  obtain ⟨led, hled⟩ : ∃ led, leds_cw_pattern[m.trace.count (.hook .do_state_0) % 4]? = some led := by
    generalize m.trace.count (.hook .do_state_0) % 4 = i at hlt
    interval_cases i <;> exact ⟨_, rfl⟩
  have hcall : call_hook .do_state_0 m
      = .ok ⟨m.fifo, (m.trace.count (.hook .do_state_0) + 1) % 4, m.turn_on, m.offset_2,
          m.trace ++ [.hook .do_state_0, .bsp_board_leds_off, .bsp_board_led_on led],
          m.pending⟩ := by
    have hmod : (m.trace.count (.hook .do_state_0) % 4 + 1) % 256 % 4
        = (m.trace.count (.hook .do_state_0) + 1) % 4 := by omega
    simp [call_hook, do_state_0, machine_t.emit, h0, hled, hmod]
  exact ⟨led, _, hled, hcall, rfl, rfl, reachable.hook _ _ _ hm hcall⟩

/-- Instance of C12: after the ticks that lit lights 0 and 1, the third tick
of state 0 lights light 3. -/
theorem do_state_0_rotation_witness :
    reachable ⟨13, 14, 15, 1⟩ []
        ⟨⟨[]⟩, 2, true, 0,
          [.hook .do_state_0, .bsp_board_leds_off, .bsp_board_led_on 0,
            .hook .do_state_0, .bsp_board_leds_off, .bsp_board_led_on 1], []⟩ ∧
      (leds_cw_pattern = [0, 1, 3, 2] ∧
        (∃ led m1,
          leds_cw_pattern[([.hook .do_state_0, .bsp_board_leds_off, .bsp_board_led_on 0,
              .hook .do_state_0, .bsp_board_leds_off, .bsp_board_led_on 1] : List call_t).count
              (.hook .do_state_0) % 4]? = some led ∧
          call_hook .do_state_0
              ⟨⟨[]⟩, 2, true, 0,
                [.hook .do_state_0, .bsp_board_leds_off, .bsp_board_led_on 0,
                  .hook .do_state_0, .bsp_board_leds_off, .bsp_board_led_on 1], []⟩
            = .ok m1 ∧
          m1.trace
            = [.hook .do_state_0, .bsp_board_leds_off, .bsp_board_led_on 0,
                .hook .do_state_0, .bsp_board_leds_off, .bsp_board_led_on 1]
              ++ [.hook .do_state_0, .bsp_board_leds_off, .bsp_board_led_on led] ∧
          m1.offset_0
            = (([.hook .do_state_0, .bsp_board_leds_off, .bsp_board_led_on 0,
                .hook .do_state_0, .bsp_board_leds_off, .bsp_board_led_on 1] : List call_t).count
                (.hook .do_state_0) + 1) % 4 ∧
          reachable ⟨13, 14, 15, 1⟩ [] m1) ∧
        (call_hook .do_state_0 (init_board []) >>= call_hook .do_state_0
            >>= call_hook .do_state_0).map machine_t.trace
          = .ok [.hook .do_state_0, .bsp_board_leds_off, .bsp_board_led_on 0,
              .hook .do_state_0, .bsp_board_leds_off, .bsp_board_led_on 1,
              .hook .do_state_0, .bsp_board_leds_off, .bsp_board_led_on 3]) :=
  have hreach : reachable ⟨13, 14, 15, 1⟩ []
      ⟨⟨[]⟩, 2, true, 0,
        [.hook .do_state_0, .bsp_board_leds_off, .bsp_board_led_on 0,
          .hook .do_state_0, .bsp_board_leds_off, .bsp_board_led_on 1], []⟩ :=
    reachable.hook .do_state_0
      ⟨⟨[]⟩, 1, true, 0, [.hook .do_state_0, .bsp_board_leds_off, .bsp_board_led_on 0], []⟩ _
      (reachable.hook .do_state_0 (init_board []) _ reachable.init rfl) rfl
  ⟨hreach, do_state_0_rotation ⟨13, 14, 15, 1⟩ [] _ hreach⟩

/-- C13: the rotation of state 2 runs opposite to that of state 0. In any
state the loop can reach, with n the number of calls of `do_state_2` so far,
the next call returns and lights `leds_ccw_pattern[n mod 4]`. For every n,
`leds_ccw_pattern[n mod 4]` equals `leds_cw_pattern[(4 - n mod 4) mod 4]`,
and each step of state 2, from the light at n to the light at n + 1, is a
step of state 0 taken backwards: some k has `leds_cw_pattern[k mod 4]` equal
to the later light and `leds_cw_pattern[(k + 1) mod 4]` equal to the
earlier one. -/
theorem do_state_2_rotation (b : board_t) (irqs : List (List irq_t)) (m : machine_t)
    (hm : reachable b irqs m) :
    (∃ led m1, leds_ccw_pattern[m.trace.count (.hook .do_state_2) % 4]? = some led ∧
        call_hook .do_state_2 m = .ok m1 ∧
        m1.trace = m.trace ++ [.hook .do_state_2, .bsp_board_leds_off, .bsp_board_led_on led] ∧
        m1.offset_2 = (m.trace.count (.hook .do_state_2) + 1) % 4 ∧
        reachable b irqs m1) ∧
      (∀ n : Nat, leds_ccw_pattern[n % 4]? = leds_cw_pattern[(4 - n % 4) % 4]?) ∧
      (∀ n : Nat, ∃ k : Nat, leds_ccw_pattern[(n + 1) % 4]? = leds_cw_pattern[k % 4]? ∧
        leds_ccw_pattern[n % 4]? = leds_cw_pattern[(k + 1) % 4]?) := by
  refine ⟨?_, ?_, ?_⟩
  · obtain ⟨-, h2, -⟩ := reachable_statics b irqs m hm
    have hlt : m.trace.count (.hook .do_state_2) % 4 < 4 := Nat.mod_lt _ (by decide)
    obtain ⟨led, hled⟩ :
        ∃ led, leds_ccw_pattern[m.trace.count (.hook .do_state_2) % 4]? = some led := by
      generalize m.trace.count (.hook .do_state_2) % 4 = i at hlt
      interval_cases i <;> exact ⟨_, rfl⟩
    have hcall : call_hook .do_state_2 m
        = .ok ⟨m.fifo, m.offset_0, m.turn_on, (m.trace.count (.hook .do_state_2) + 1) % 4,
            m.trace ++ [.hook .do_state_2, .bsp_board_leds_off, .bsp_board_led_on led],
            m.pending⟩ := by
      have hmod : (m.trace.count (.hook .do_state_2) % 4 + 1) % 256 % 4
          = (m.trace.count (.hook .do_state_2) + 1) % 4 := by omega
      simp [call_hook, do_state_2, machine_t.emit, h2, hled, hmod]
    exact ⟨led, _, hled, hcall, rfl, rfl, reachable.hook _ _ _ hm hcall⟩
  · intro n
    have hlt : n % 4 < 4 := Nat.mod_lt _ (by decide)
    generalize n % 4 = i at hlt
    interval_cases i <;> rfl
  · intro n
    refine ⟨4 - (n + 1) % 4, ?_⟩
    have h : n % 4 = 0 ∨ n % 4 = 1 ∨ n % 4 = 2 ∨ n % 4 = 3 := by omega
    rcases h with h | h | h | h
    · have h1 : (n + 1) % 4 = 1 := by omega
      rw [h1, h]; exact ⟨rfl, rfl⟩
    · have h1 : (n + 1) % 4 = 2 := by omega
      rw [h1, h]; exact ⟨rfl, rfl⟩
    · have h1 : (n + 1) % 4 = 3 := by omega
      rw [h1, h]; exact ⟨rfl, rfl⟩
    · have h1 : (n + 1) % 4 = 0 := by omega
      rw [h1, h]; exact ⟨rfl, rfl⟩

/-- Instance of C13 at start-up: the first tick of state 2. -/
theorem do_state_2_rotation_witness :
    reachable ⟨13, 14, 15, 1⟩ [] (init_board []) ∧
      ((∃ led m1,
          leds_ccw_pattern[(init_board []).trace.count (.hook .do_state_2) % 4]? = some led ∧
          call_hook .do_state_2 (init_board []) = .ok m1 ∧
          m1.trace = (init_board []).trace
            ++ [.hook .do_state_2, .bsp_board_leds_off, .bsp_board_led_on led] ∧
          m1.offset_2 = ((init_board []).trace.count (.hook .do_state_2) + 1) % 4 ∧
          reachable ⟨13, 14, 15, 1⟩ [] m1) ∧
        (∀ n : Nat, leds_ccw_pattern[n % 4]? = leds_cw_pattern[(4 - n % 4) % 4]?) ∧
        (∀ n : Nat, ∃ k : Nat, leds_ccw_pattern[(n + 1) % 4]? = leds_cw_pattern[k % 4]? ∧
          leds_ccw_pattern[n % 4]? = leds_cw_pattern[(k + 1) % 4]?)) :=
  ⟨reachable.init, do_state_2_rotation ⟨13, 14, 15, 1⟩ [] (init_board []) reachable.init⟩

/-- C14: state 1 toggles all lights on every tick. In any state the loop can
reach, with n the number of calls of `do_state_1` made since process start
(in whichever activations), the next call returns and makes one library call:
all lights on when n is even, all lights off when n is odd. -/
theorem do_state_1_toggle (b : board_t) (irqs : List (List irq_t)) (m : machine_t)
    (hm : reachable b irqs m) :
    ∃ m1, call_hook .do_state_1 m = .ok m1 ∧
      m1.trace = m.trace ++ [.hook .do_state_1,
        if m.trace.count (.hook .do_state_1) % 2 = 0 then .bsp_board_leds_on
        else .bsp_board_leds_off] ∧
      m1.turn_on = decide ((m.trace.count (.hook .do_state_1) + 1) % 2 = 0) ∧
      reachable b irqs m1 := by
  obtain ⟨-, -, ht⟩ := reachable_statics b irqs m hm
  rcases Nat.mod_two_eq_zero_or_one (m.trace.count (.hook .do_state_1)) with h | h
  · have h1 : (m.trace.count (.hook .do_state_1) + 1) % 2 = 1 := by omega
    have hon : m.turn_on = true := by simpa [h] using ht
    have hcall : call_hook .do_state_1 m
        = .ok ⟨m.fifo, m.offset_0, false, m.offset_2,
            m.trace ++ [.hook .do_state_1, .bsp_board_leds_on], m.pending⟩ := by
      simp [call_hook, do_state_1, machine_t.emit, hon]
    exact ⟨_, hcall, by simp [h], by simp [h1], reachable.hook _ _ _ hm hcall⟩
  · have h1 : (m.trace.count (.hook .do_state_1) + 1) % 2 = 0 := by omega
    have hoff : m.turn_on = false := by simpa [h] using ht
    have hcall : call_hook .do_state_1 m
        = .ok ⟨m.fifo, m.offset_0, true, m.offset_2,
            m.trace ++ [.hook .do_state_1, .bsp_board_leds_off], m.pending⟩ := by
      simp [call_hook, do_state_1, machine_t.emit, hoff]
    exact ⟨_, hcall, by simp [h], by simp [h1], reachable.hook _ _ _ hm hcall⟩

/-- Instance of C14: after one tick of state 1, the second tick turns the
lights off. -/
theorem do_state_1_toggle_witness :
    reachable ⟨13, 14, 15, 1⟩ []
        ⟨⟨[]⟩, 0, false, 0, [.hook .do_state_1, .bsp_board_leds_on], []⟩ ∧
      ∃ m1,
        call_hook .do_state_1 ⟨⟨[]⟩, 0, false, 0, [.hook .do_state_1, .bsp_board_leds_on], []⟩
          = .ok m1 ∧
        m1.trace = [.hook .do_state_1, .bsp_board_leds_on] ++ [.hook .do_state_1,
          if ([.hook .do_state_1, .bsp_board_leds_on] : List call_t).count
              (.hook .do_state_1) % 2 = 0 then .bsp_board_leds_on
          else .bsp_board_leds_off] ∧
        m1.turn_on = decide ((([.hook .do_state_1, .bsp_board_leds_on] : List call_t).count
          (.hook .do_state_1) + 1) % 2 = 0) ∧
        reachable ⟨13, 14, 15, 1⟩ [] m1 :=
  have hreach : reachable ⟨13, 14, 15, 1⟩ []
      ⟨⟨[]⟩, 0, false, 0, [.hook .do_state_1, .bsp_board_leds_on], []⟩ :=
    reachable.hook .do_state_1 (init_board []) _ reachable.init rfl
  ⟨hreach, do_state_1_toggle ⟨13, 14, 15, 1⟩ [] _ hreach⟩

/-! ## Invariants of the control loop -/

/-- Invariant rule for the inner loop of `main`. A property of the machine
state that the Do hook, a wait followed by a poll, and a log flush all
preserve holds when the loop is left; the event that ends the loop is not
`no_evt` and has every property that a value returned by a poll has. -/
theorem main_inner_invariant (b : board_t) (S : state_t) (P : machine_t → Prop)
    (Q : event_t → Prop)
    (hdo : ∀ m m1, P m → call_hook S.Do m = .ok m1 → P m1)
    (hpass : ∀ m, P m → P (poll (nrf_delay_ms b S.delay_ms m)).2 ∧
      Q (poll (nrf_delay_ms b S.delay_ms m)).1)
    (hflush : ∀ m, P m → P (m.emit .NRF_LOG_FLUSH)) :
    ∀ (fuel : Nat) (m : machine_t) (E : event_t) (m1 : machine_t), P m →
      main_inner b S fuel m = .ok (E, m1) → P m1 ∧ Q E ∧ E ≠ no_evt := by
  intro fuel
  induction fuel with
  | zero => intro m E m1 _ h; simp [main_inner] at h
  | succ fuel ih =>
    intro m E m1 hP h
    rw [main_inner] at h
    cases hc : call_hook S.Do m with
    | error e => rw [hc] at h; cases h
    | ok ma =>
      rw [hc] at h
      simp only at h
      have hPa := hdo m ma hP hc
      obtain ⟨hPb, hQ⟩ := hpass ma hPa
      by_cases hr : (poll (nrf_delay_ms b S.delay_ms ma)).1 = no_evt
      · rw [if_neg (by simpa using hr)] at h
        exact ih _ E m1 (hflush _ hPb) h
      · rw [if_pos hr] at h
        simp only [Except.ok.injEq] at h
        rw [h] at hPb hQ hr
        exact ⟨hPb, hQ, hr⟩

/-- Invariant rule for one activation: what the three hooks of the state, a
wait followed by a poll, and a log flush all preserve holds after Exit. -/
theorem main_activation_invariant (b : board_t) (S : state_t) (P : machine_t → Prop)
    (Q : event_t → Prop)
    (hhook : ∀ f m m1, P m → call_hook f m = .ok m1 → P m1)
    (hpass : ∀ m, P m → P (poll (nrf_delay_ms b S.delay_ms m)).2 ∧
      Q (poll (nrf_delay_ms b S.delay_ms m)).1)
    (hflush : ∀ m, P m → P (m.emit .NRF_LOG_FLUSH))
    (fuel : Nat) (m : machine_t) (E : event_t) (m1 : machine_t) (hP : P m)
    (h : main_activation b S fuel m = .ok (E, m1)) : P m1 ∧ Q E ∧ E ≠ no_evt := by
  rw [main_activation] at h
  cases hc : call_hook S.Enter m with
  | error e => rw [hc] at h; cases h
  | ok ma =>
    rw [hc] at h
    simp only at h
    cases hi : main_inner b S fuel ma with
    | error e => rw [hi] at h; cases h
    | ok r =>
      rw [hi] at h
      simp only at h
      obtain ⟨hPr, hQ, hne⟩ := main_inner_invariant b S P Q (hhook S.Do) hpass hflush fuel ma
        r.1 r.2 (hhook _ _ _ hP hc) hi
      cases hx : call_hook S.Exit r.2 with
      | error e => rw [hx] at h; cases h
      | ok mc =>
        rw [hx] at h
        simp only [Except.ok.injEq, Prod.mk.injEq] at h
        obtain ⟨hE, hm⟩ := h
        subst hE; subst hm
        exact ⟨hhook _ _ _ hPr hx, hQ, hne⟩

/-- Invariant rule for the outer loop: what every hook, every wait followed
by a poll, and a log flush preserve holds in the state `main_loop` returns. -/
theorem main_loop_invariant (b : board_t) (P : machine_t → Prop)
    (hhook : ∀ f m m1, P m → call_hook f m = .ok m1 → P m1)
    (hpass : ∀ ms m, P m → P (poll (nrf_delay_ms b ms m)).2)
    (hflush : ∀ m, P m → P (m.emit .NRF_LOG_FLUSH)) (fuel : Nat) :
    ∀ (activations : Nat) (S : state_t) (m : machine_t) (s : state_t) (m1 : machine_t),
      P m → main_loop b fuel activations S m = .ok (s, m1) → P m1 := by
  intro activations
  induction activations with
  | zero =>
    intro S m s m1 hP h
    simp only [main_loop, Except.ok.injEq, Prod.mk.injEq] at h
    rw [← h.2]; exact hP
  | succ a ih =>
    intro S m s m1 hP h
    rw [main_loop] at h
    cases ha : main_activation b S fuel m with
    | error e => rw [ha] at h; cases h
    | ok r =>
      rw [ha] at h
      simp only at h
      obtain ⟨hPr, -, -⟩ := main_activation_invariant b S P (fun _ => True) hhook
        (fun m hm => ⟨hpass _ m hm, trivial⟩) hflush fuel m r.1 r.2 hP ha
      cases hl : state_table_at S.id r.1 with
      | none => rw [hl] at h; cases h
      | some next =>
        rw [hl] at h
        exact ih next r.2 s m1 hPr h

/-- Every machine state `main` returns is one the loop can reach. -/
theorem main_reachable (b : board_t) (irqs : List (List irq_t)) (fuel activations : Nat)
    (s : state_t) (m : machine_t) (h : main b irqs fuel activations = .ok (s, m)) :
    reachable b irqs m :=
  main_loop_invariant b (reachable b irqs)
    (fun f m m1 hm hc => reachable.hook f m m1 hm hc)
    (fun ms m hm => reachable.poll _ (reachable.wait ms m hm))
    (fun m hm => reachable.flush m hm) fuel activations state0 (init_board irqs) s m
    reachable.init h

/-! ## The inactivity timer -/

/-- Every entry of `state_table` is one of the four descriptors, and a read
that yields an entry has its row index below 4 and its column index below 5. -/
theorem state_table_at_some (i j : Nat) (t : state_t) (h : state_table_at i j = some t) :
    i < 4 ∧ j < 5 ∧ t ∈ canonical_states := by
  rcases Nat.lt_or_ge i 4 with hi | hi
  · rcases Nat.lt_or_ge j 5 with hj | hj
    · refine ⟨hi, hj, ?_⟩
      interval_cases i <;> interval_cases j <;>
        simp only [state_table_at, state_table, List.getElem?_cons_zero,
          List.getElem?_cons_succ, Option.some.injEq] at h <;> subst h <;> decide
    · exfalso
      obtain ⟨k, rfl⟩ : ∃ k, j = k + 5 := ⟨j - 5, by omega⟩
      interval_cases i <;> simp [state_table_at, state_table] at h
  · exfalso
    obtain ⟨k, rfl⟩ : ∃ k, i = k + 4 := ⟨i - 4, by omega⟩
    simp [state_table_at, state_table] at h

/-- A hook call arms the timer once when the hook is `start_state_3` and not
at all otherwise. -/
theorem call_hook_arms (f : state_func_t) (m m1 : machine_t) (h : call_hook f m = .ok m1) :
    m1.trace.count .app_timer_start
      = m.trace.count .app_timer_start + (if f = .start_state_3 then 1 else 0) := by
  obtain ⟨inner, htr, -, -, -, hc, -⟩ := call_hook_effect f m m1 h
  rw [htr, List.count_append, List.count_cons, hc]
  simp

/-- One activation of a state arms the timer once when the state is state 3
and not at all when it is state 0, 1 or 2. -/
theorem main_activation_arms (b : board_t) (S : state_t) (hS : S ∈ canonical_states)
    (fuel : Nat) (m : machine_t) (E : event_t) (m1 : machine_t)
    (h : main_activation b S fuel m = .ok (E, m1)) :
    m1.trace.count .app_timer_start
      = m.trace.count .app_timer_start + (if S = state3 then 1 else 0) := by
  have hhooks : (if S.Enter = .start_state_3 then 1 else 0) = (if S = state3 then 1 else 0) ∧
      S.Do ≠ .start_state_3 ∧ S.Exit ≠ .start_state_3 := by
    simp only [canonical_states, List.mem_cons, List.mem_singleton, List.not_mem_nil,
      or_false] at hS
    rcases hS with rfl | rfl | rfl | rfl <;> decide
  obtain ⟨hen, hdo, hex⟩ := hhooks
  rw [main_activation] at h
  cases hc : call_hook S.Enter m with
  | error e => rw [hc] at h; cases h
  | ok ma =>
    rw [hc] at h
    simp only at h
    cases hi : main_inner b S fuel ma with
    | error e => rw [hi] at h; cases h
    | ok r =>
      rw [hi] at h
      simp only at h
      cases hx : call_hook S.Exit r.2 with
      | error e => rw [hx] at h; cases h
      | ok mc =>
        rw [hx] at h
        simp only [Except.ok.injEq, Prod.mk.injEq] at h
        obtain ⟨-, hm⟩ := h
        subst hm
        have h1 := call_hook_arms _ _ _ hc
        have h3 := call_hook_arms _ _ _ hx
        have h2 : r.2.trace.count .app_timer_start = ma.trace.count .app_timer_start :=
          (main_inner_invariant b S
            (fun x => x.trace.count .app_timer_start = ma.trace.count .app_timer_start)
            (fun _ => True)
            (fun x x1 hx1 hcall => by
              have := call_hook_arms _ _ _ hcall
              rw [if_neg hdo] at this
              omega)
            (fun x hx1 => ⟨by
              simpa [poll, nrf_delay_ms, machine_t.emit, List.count_append] using hx1,
              trivial⟩)
            (fun x hx1 => by simpa [machine_t.emit, List.count_append] using hx1)
            fuel ma r.1 r.2 rfl hi).1
        rw [if_neg hex] at h3
        rw [h3, h2, h1, hen, Nat.add_zero]

/-- Along a run of the outer loop from one of the four states, the timer is
armed as often as state 3 is the current state at a table read. -/
theorem main_loop_arms (b : board_t) (fuel : Nat) :
    ∀ (activations : Nat) (S : state_t) (m : machine_t) (s : state_t) (m1 : machine_t),
      S ∈ canonical_states → main_loop b fuel activations S m = .ok (s, m1) →
      m1.trace.count .app_timer_start
        = m.trace.count .app_timer_start
          + ((main_steps b fuel activations S m).map Prod.fst).count state3 ∧
      (main_steps b fuel activations S m).length = activations := by
  intro activations
  induction activations with
  | zero =>
    intro S m s m1 _ h
    simp only [main_loop, Except.ok.injEq, Prod.mk.injEq] at h
    rw [← h.2]; simp [main_steps]
  | succ a ih =>
    intro S m s m1 hS h
    rw [main_loop] at h
    rw [main_steps]
    cases ha : main_activation b S fuel m with
    | error e => rw [ha] at h; cases h
    | ok r =>
      rw [ha] at h
      simp only at h ⊢
      have harm := main_activation_arms b S hS fuel m r.1 r.2 ha
      cases hl : state_table_at S.id r.1 with
      | none => rw [hl] at h; cases h
      | some next =>
        rw [hl] at h
        simp only at h ⊢
        obtain ⟨hcount, hlen⟩ := ih next r.2 s m1 (state_table_at_some _ _ _ hl).2.2 h
        refine ⟨?_, by simp [hlen]⟩
        rw [hcount, harm, List.map_cons, List.count_cons]
        by_cases hS3 : S = state3
        · simp [hS3]; omega
        · have : ¬ (S == state3) = true := by simpa using hS3
          simp [hS3, this]

/-- C17: the inactivity timer is armed exactly on entry to state 3. The Enter
hook of state 3 arms the timer and then initialises and starts the fade
effect; its Do hook makes no library call; its Exit hook stops the fade
effect; no Enter, Do or Exit hook of state 0, 1 or 2 arms the timer. So when
`main` has completed a number of activations, the timer has been armed as
often as state 3 was the active state among them. -/
theorem timer_armed_on_state3_entry (b : board_t) (irqs : List (List irq_t))
    (fuel activations : Nat) (s : state_t) (m : machine_t)
    (h : main b irqs fuel activations = .ok (s, m)) :
    (∀ x : machine_t, call_hook state3.Enter x
        = .ok ⟨x.fifo, x.offset_0, x.turn_on, x.offset_2,
            x.trace ++ [.hook .start_state_3, .app_timer_start, .led_softblink_init,
              .led_softblink_start], x.pending⟩) ∧
      (∀ x : machine_t, call_hook state3.Do x = .ok (x.emit (.hook .do_state_3))) ∧
      (∀ x : machine_t, call_hook state3.Exit x
        = .ok ⟨x.fifo, x.offset_0, x.turn_on, x.offset_2,
            x.trace ++ [.hook .exit_state_3, .led_softblink_stop], x.pending⟩) ∧
      (∀ S ∈ [state0, state1, state2], ∀ f ∈ [S.Enter, S.Do, S.Exit], ∀ x x1 : machine_t,
        call_hook f x = .ok x1 →
          x1.trace.count .app_timer_start = x.trace.count .app_timer_start) ∧
      (main_steps b fuel activations state0 (init_board irqs)).length = activations ∧
      m.trace.count .app_timer_start
        = ((main_steps b fuel activations state0 (init_board irqs)).map Prod.fst).count
            state3 := by
  refine ⟨?_, ?_, ?_, ?_, ?_, ?_⟩
  · intro x; simp [call_hook, start_state_3, state3, machine_t.emit]
  · intro x; rfl
  · intro x; simp [call_hook, exit_state_3, state3, machine_t.emit]
  · intro S hS f hf x x1 hcall
    have hne : f ≠ .start_state_3 := by
      simp only [List.mem_cons, List.mem_singleton, List.not_mem_nil, or_false] at hS hf
      rcases hS with rfl | rfl | rfl <;> rcases hf with rfl | rfl | rfl <;> decide
    have := call_hook_arms f x x1 hcall
    rw [if_neg hne] at this
    exact this
  · exact (main_loop_arms b fuel activations state0 (init_board irqs) s m (by decide) h).2
  · have := (main_loop_arms b fuel activations state0 (init_board irqs) s m (by decide) h).1
    simpa [init_board] using this

/-- Instance of C17: button 3 is pushed in state 0, state 3 is entered and
left again on the timeout; the timer was armed once. -/
theorem timer_armed_on_state3_entry_witness :
    main ⟨13, 14, 15, 1⟩ [[.button 15 1 0], [.timeout]] 1 2
        = .ok (state0,
            ⟨⟨[]⟩, 1, true, 0,
              [.hook .bsp_board_leds_off, .bsp_board_leds_off,
                .hook .do_state_0, .bsp_board_leds_off, .bsp_board_led_on 0,
                .nrf_delay_ms 200, .get_event 2,
                .hook .bsp_board_leds_off, .bsp_board_leds_off,
                .hook .start_state_3, .app_timer_start, .led_softblink_init,
                .led_softblink_start,
                .hook .do_state_3, .nrf_delay_ms 200, .get_event 3,
                .hook .exit_state_3, .led_softblink_stop], []⟩) ∧
      (main_steps ⟨13, 14, 15, 1⟩ 1 2 state0 (init_board [[.button 15 1 0], [.timeout]])).length
        = 2 ∧
      ([.hook .bsp_board_leds_off, .bsp_board_leds_off,
          .hook .do_state_0, .bsp_board_leds_off, .bsp_board_led_on 0,
          .nrf_delay_ms 200, .get_event 2,
          .hook .bsp_board_leds_off, .bsp_board_leds_off,
          .hook .start_state_3, .app_timer_start, .led_softblink_init,
          .led_softblink_start,
          .hook .do_state_3, .nrf_delay_ms 200, .get_event 3,
          .hook .exit_state_3, .led_softblink_stop] : List call_t).count .app_timer_start
        = ((main_steps ⟨13, 14, 15, 1⟩ 1 2 state0
            (init_board [[.button 15 1 0], [.timeout]])).map Prod.fst).count state3 :=
  have hrun : main ⟨13, 14, 15, 1⟩ [[.button 15 1 0], [.timeout]] 1 2
      = .ok (state0,
          ⟨⟨[]⟩, 1, true, 0,
            [.hook .bsp_board_leds_off, .bsp_board_leds_off,
              .hook .do_state_0, .bsp_board_leds_off, .bsp_board_led_on 0,
              .nrf_delay_ms 200, .get_event 2,
              .hook .bsp_board_leds_off, .bsp_board_leds_off,
              .hook .start_state_3, .app_timer_start, .led_softblink_init,
              .led_softblink_start,
              .hook .do_state_3, .nrf_delay_ms 200, .get_event 3,
              .hook .exit_state_3, .led_softblink_stop], []⟩) := rfl
  ⟨hrun, (timer_armed_on_state3_entry _ _ _ _ _ _ hrun).2.2.2.2⟩

/-! ## Polls that find nothing -/

/-- The only hook calls among the entries of idle passes are calls of the Do
hook. -/
theorem hook_mem_idle_passes (S : state_t) (f : state_func_t) :
    ∀ n : Nat, call_t.hook f ∈ idle_passes S n → f = S.Do := by
  intro n
  induction n with
  | zero => intro h; simp [idle_passes] at h
  | succ n ih =>
    intro h
    simp only [idle_passes, List.cons_append, List.nil_append, List.mem_cons,
      call_t.hook.injEq, reduceCtorEq, false_or] at h
    rcases h with h | h
    · exact h
    · exact ih h

/-- The inner loop of `main` in state S, started where the next n polls
return `no_evt`, is after n passes again at the top of the same loop: running
it with n more units of fuel is running it afresh from the state reached.
That state has the queue and the schedule left by n rounds of wait and poll,
and the trace has grown by n passes of Do, wait and poll. -/
theorem main_inner_idle (b : board_t) (S : state_t) :
    ∀ (n : Nat) (m : machine_t), m.offset_0 < 4 → m.offset_2 < 4 →
      poll_results b n m.fifo m.pending = List.replicate n no_evt →
      ∃ mn added, (∀ fuel, main_inner b S (n + fuel) m = main_inner b S fuel mn) ∧
        mn.offset_0 < 4 ∧ mn.offset_2 < 4 ∧
        (mn.fifo, mn.pending) = after_polls b n m.fifo m.pending ∧
        mn.trace = m.trace ++ added ∧
        added.filter call_t.is_action = idle_passes S n := by
  intro n
  induction n with
  | zero =>
    intro m h0 h2 _
    exact ⟨m, [], fun fuel => by rw [Nat.zero_add], h0, h2, rfl, by simp, rfl⟩
  | succ n ih =>
    intro m h0 h2 hpolls
    obtain ⟨m1, inner, hcall, hf, hp, h0a, h2a, htr, hfil⟩ := call_hook_ok S.Do m h0 h2
    obtain ⟨q1, q2, q3, q4, q5, q6⟩ := poll_after_delay b S.delay_ms m1
    rw [hf, hp] at q1 q2 q6
    rw [hp] at q3
    rw [poll_results, List.replicate_succ] at hpolls
    simp only [List.cons.injEq] at hpolls
    obtain ⟨hhead, htail⟩ := hpolls
    rw [hhead] at q1 q6
    obtain ⟨mn, added, hrun, h0b, h2b, hq, htr2, hfil2⟩ :=
      ih ((poll (nrf_delay_ms b S.delay_ms m1)).2.emit .NRF_LOG_FLUSH)
        (by simpa [machine_t.emit, q4] using h0a) (by simpa [machine_t.emit, q5] using h2a)
        (by simpa [machine_t.emit, q2, q3] using htail)
    refine ⟨mn, (.hook S.Do :: inner) ++ [.nrf_delay_ms S.delay_ms, .get_event no_evt]
      ++ [.NRF_LOG_FLUSH] ++ added, ?_, h0b, h2b, ?_, ?_, ?_⟩
    · intro fuel
      have hfuel : n + 1 + fuel = (n + fuel) + 1 := by omega
      rw [hfuel, main_inner, hcall]
      simp only [q1, ne_eq, not_true_eq_false, if_false]
      exact hrun fuel
    · rw [hq, after_polls]
      simp [machine_t.emit, q2, q3]
    · rw [htr2]
      simp [machine_t.emit, q6, htr, List.append_assoc]
    · simp [List.filter_append, hfil, hfil2, call_t.is_action, idle_passes]

/-- C11: the control loop does not advance on an empty queue. Let S be one of
the four states, activated where the next n polls return `no_evt`. Then the
Enter hook returns, and after n passes the loop is still the inner loop of S:
the calls `main` made since Enter are n times Do, wait, poll; neither the
Exit hook of S nor the Enter hook of any state has been called since; with
fuel for n passes the activation has not ended, and `main` has read no entry
of `state_table`. -/
theorem no_advance_on_empty_queue (b : board_t) (S : state_t) (n : Nat) (m : machine_t)
    (hS : S ∈ canonical_states) (h0 : m.offset_0 < 4) (h2 : m.offset_2 < 4)
    (hpolls : poll_results b n m.fifo m.pending = List.replicate n no_evt) :
    ∃ ma mn added, call_hook S.Enter m = .ok ma ∧
      (∀ fuel, main_inner b S (n + fuel) ma = main_inner b S fuel mn) ∧
      mn.trace = ma.trace ++ added ∧
      added.filter call_t.is_action = idle_passes S n ∧
      call_t.hook S.Exit ∉ added ∧
      (∀ T ∈ canonical_states, call_t.hook T.Enter ∉ added) ∧
      main_activation b S n m = .error .out_of_fuel ∧
      ∀ activations, main_loop b n (activations + 1) S m = .error .out_of_fuel ∧
        main_steps b n (activations + 1) S m = [] := by
  obtain ⟨ma, ina, hca, hfa, hpa, h0a, h2a, -, -⟩ := call_hook_ok S.Enter m h0 h2
  obtain ⟨mn, added, hrun, -, -, -, htr, hfil⟩ :=
    main_inner_idle b S n ma h0a h2a (by rw [hfa, hpa]; exact hpolls)
  have hhook : ∀ f, call_t.hook f ∈ added → f = S.Do := by
    intro f hf
    apply hook_mem_idle_passes S f n
    rw [← hfil]
    exact List.mem_filter.mpr ⟨hf, rfl⟩
  have hdo : S.Do ≠ S.Exit ∧ ∀ T ∈ canonical_states, T.Enter ≠ S.Do := by
    simp only [canonical_states, List.mem_cons, List.mem_singleton, List.not_mem_nil,
      or_false] at hS
    rcases hS with rfl | rfl | rfl | rfl <;> decide
  have hstop : main_inner b S n ma = .error .out_of_fuel := by
    have := hrun 0
    rw [Nat.add_zero] at this
    rw [this]; rfl
  have hact : main_activation b S n m = .error .out_of_fuel := by
    simp only [main_activation, hca, hstop]
  refine ⟨ma, mn, added, hca, hrun, htr, hfil, ?_, ?_, hact, ?_⟩
  · intro hmem
    exact hdo.1 (hhook _ hmem).symm
  · intro T hT hmem
    exact hdo.2 T hT (hhook _ hmem)
  · intro activations
    constructor
    · simp only [main_loop, hact]
    · simp only [main_steps, hact]

/-- Instance of C11: state 0 is activated at start-up and nothing is queued
before the first two polls. -/
theorem no_advance_on_empty_queue_witness :
    (state0 ∈ canonical_states ∧ (init_board [[], []]).offset_0 < 4 ∧
      (init_board [[], []]).offset_2 < 4 ∧
      poll_results ⟨13, 14, 15, 1⟩ 2 (init_board [[], []]).fifo (init_board [[], []]).pending
        = List.replicate 2 no_evt) ∧
    ∃ ma mn added, call_hook state0.Enter (init_board [[], []]) = .ok ma ∧
      (∀ fuel, main_inner ⟨13, 14, 15, 1⟩ state0 (2 + fuel) ma
        = main_inner ⟨13, 14, 15, 1⟩ state0 fuel mn) ∧
      mn.trace = ma.trace ++ added ∧
      added.filter call_t.is_action = idle_passes state0 2 ∧
      call_t.hook state0.Exit ∉ added ∧
      (∀ T ∈ canonical_states, call_t.hook T.Enter ∉ added) ∧
      main_activation ⟨13, 14, 15, 1⟩ state0 2 (init_board [[], []]) = .error .out_of_fuel ∧
      ∀ activations,
        main_loop ⟨13, 14, 15, 1⟩ 2 (activations + 1) state0 (init_board [[], []])
          = .error .out_of_fuel ∧
        main_steps ⟨13, 14, 15, 1⟩ 2 (activations + 1) state0 (init_board [[], []]) = [] :=
  ⟨⟨by decide, by decide, by decide, by decide⟩,
    no_advance_on_empty_queue ⟨13, 14, 15, 1⟩ state0 2 (init_board [[], []]) (by decide)
      (by decide) (by decide) (by decide)⟩

/-! ## Table reads of the control loop -/

/-- A read of `state_table` with row index below 4 and column index below 5
yields one of the four descriptors. -/
theorem state_table_at_defined (i j : Nat) (hi : i < 4) (hj : j < 5) :
    ∃ t, state_table_at i j = some t ∧ t ∈ canonical_states := by
  interval_cases i <;> interval_cases j <;> exact ⟨_, rfl, by decide⟩

/-- The effect of an interrupt on the queue: one put of the value it offers,
or nothing when it offers none. -/
theorem serve_irq_eq (b : board_t) (fifo : nrf_atfifo_t) (irq : irq_t) :
    serve_irq b fifo irq
      = match irq_value b irq with
        | some v => (nrf_atfifo_alloc_put fifo v).2
        | none => fifo := by
  cases irq with
  | button pin_num btn_action evt_uninit =>
    by_cases h : btn_action = b.APP_BUTTON_PUSH <;>
      simp [serve_irq, irq_value, button_handler, h]
  | timeout => rfl

/-- A put of a value below `no_evt` into a queue whose values are all below
`no_evt` leaves such a queue. -/
theorem alloc_put_in_enum (fifo : nrf_atfifo_t) (v : event_t) (hv : v < no_evt)
    (hq : ∀ x ∈ fifo.items, x < no_evt) :
    ∀ x ∈ (nrf_atfifo_alloc_put fifo v).2.items, x < no_evt := by
  intro x hx
  unfold nrf_atfifo_alloc_put at hx
  split at hx
  · simp only [List.mem_append, List.mem_singleton] at hx
    rcases hx with hx | hx
    · exact hq x hx
    · rw [hx]; exact hv
  · exact hq x hx

/-- Serving interrupts that offer values below `no_evt` keeps a queue whose
values are all below `no_evt`. -/
theorem serve_pending_in_enum (b : board_t) (fifo : nrf_atfifo_t) (pending : List (List irq_t))
    (hs : schedule_in_enum b pending) (hq : ∀ x ∈ fifo.items, x < no_evt) :
    ∀ x ∈ (serve_pending b fifo pending).items, x < no_evt := by
  cases pending with
  | nil => exact hq
  | cons irqs later =>
    have hirqs : ∀ irq ∈ irqs, ∀ v, irq_value b irq = some v → v < no_evt :=
      hs irqs (List.mem_cons_self _ _)
    simp only [serve_pending]
    clear hs
    induction irqs generalizing fifo with
    | nil => exact hq
    | cons irq rest ih =>
      simp only [List.foldl_cons]
      apply ih
      · rw [serve_irq_eq]
        cases hv : irq_value b irq with
        | none => exact hq
        | some v =>
          exact alloc_put_in_enum fifo v (hirqs irq (List.mem_cons_self _ _) v hv) hq
      · intro i hi v hv
        exact hirqs i (List.mem_cons_of_mem _ hi) v hv

/-- A poll of a queue whose values are all below `no_evt` returns a value
that is at most `no_evt` and leaves such a queue. -/
theorem get_event_in_enum (fifo : nrf_atfifo_t) (hq : ∀ x ∈ fifo.items, x < no_evt) :
    (get_event fifo).1 ≤ no_evt ∧ ∀ x ∈ (get_event fifo).2.items, x < no_evt := by
  obtain ⟨items⟩ := fifo
  cases items with
  | nil => exact ⟨Nat.le_refl _, hq⟩
  | cons e es =>
    refine ⟨Nat.le_of_lt (hq e (List.mem_cons_self _ _)), ?_⟩
    intro x hx
    exact hq x (List.mem_cons_of_mem _ hx)

/-- The inner loop started with both rotation offsets below 4 does not stop
on an array read outside its bounds. -/
theorem main_inner_in_bounds (b : board_t) (S : state_t) :
    ∀ (fuel : Nat) (m : machine_t), m.offset_0 < 4 → m.offset_2 < 4 →
      main_inner b S fuel m ≠ .error .out_of_bounds := by
  intro fuel
  induction fuel with
  | zero => intro m _ _ h; simp [main_inner] at h
  | succ fuel ih =>
    intro m h0 h2
    obtain ⟨m1, inner, hcall, -, -, h0a, h2a, -, -⟩ := call_hook_ok S.Do m h0 h2
    obtain ⟨-, -, -, q4, q5, -⟩ := poll_after_delay b S.delay_ms m1
    rw [main_inner, hcall]
    simp only
    split
    · intro h; cases h
    · exact ih _ (by simpa [machine_t.emit, q4] using h0a)
        (by simpa [machine_t.emit, q5] using h2a)

/-- Hook calls keep the machine in a state without out-of-bounds reads. -/
theorem in_enum_hook (b : board_t) (f : state_func_t) (m m1 : machine_t)
    (hm : m.in_enum b) (hcall : call_hook f m = .ok m1) : m1.in_enum b := by
  obtain ⟨h0, h2, hq, hs⟩ := hm
  obtain ⟨m2, -, hcall2, hf, hp, h0a, h2a, -, -⟩ := call_hook_ok f m h0 h2
  rw [hcall] at hcall2
  cases hcall2
  exact ⟨h0a, h2a, by rw [hf]; exact hq, by rw [hp]; exact hs⟩

/-- A wait followed by a poll keeps the machine in a state without
out-of-bounds reads, and the poll returns a value that is at most `no_evt`. -/
theorem in_enum_pass (b : board_t) (ms : Nat) (m : machine_t) (hm : m.in_enum b) :
    (poll (nrf_delay_ms b ms m)).2.in_enum b ∧ (poll (nrf_delay_ms b ms m)).1 ≤ no_evt := by
  obtain ⟨h0, h2, hq, hs⟩ := hm
  obtain ⟨q1, q2, q3, q4, q5, -⟩ := poll_after_delay b ms m
  have hserved := serve_pending_in_enum b m.fifo m.pending hs hq
  obtain ⟨hle, hq2⟩ := get_event_in_enum _ hserved
  refine ⟨⟨by rw [q4]; exact h0, by rw [q5]; exact h2, by rw [q2]; exact hq2, ?_⟩,
    by rw [q1]; exact hle⟩
  rw [q3]
  intro batch hb
  exact hs batch (List.mem_of_mem_tail hb)

/-- A log flush keeps the machine in a state without out-of-bounds reads. -/
theorem in_enum_flush (b : board_t) (m : machine_t) (hm : m.in_enum b) :
    (m.emit .NRF_LOG_FLUSH).in_enum b := hm

/-- One activation started in a state without out-of-bounds reads does not
stop on such a read. -/
theorem main_activation_in_bounds (b : board_t) (S : state_t) (fuel : Nat) (m : machine_t)
    (hm : m.in_enum b) : main_activation b S fuel m ≠ .error .out_of_bounds := by
  obtain ⟨ma, -, hca, -, -, h0a, h2a, -, -⟩ := call_hook_ok S.Enter m hm.1 hm.2.1
  have hma : ma.in_enum b := in_enum_hook b _ _ _ hm hca
  rw [main_activation, hca]
  simp only
  cases hi : main_inner b S fuel ma with
  | error e =>
    simp only
    intro h
    cases h
    exact main_inner_in_bounds b S fuel ma h0a h2a hi
  | ok r =>
    simp only
    obtain ⟨hr, -, -⟩ := main_inner_invariant b S (fun x => x.in_enum b) (fun _ => True)
      (fun x x1 hx hc => in_enum_hook b _ x x1 hx hc)
      (fun x hx => ⟨(in_enum_pass b _ x hx).1, trivial⟩)
      (fun x hx => in_enum_flush b x hx) fuel ma r.1 r.2 hma hi
    obtain ⟨mc, -, hcc, -⟩ := call_hook_ok S.Exit r.2 hr.1 hr.2.1
    rw [hcc]
    intro h
    cases h

/-- Along a run of the outer loop from one of the four states, in a state
without out-of-bounds reads: the run does not stop on such a read; at every
read of `state_table` the current state is one of the four descriptors, the
row index is below 4 and the column index is below `no_evt`; and the state
the run ends in is one of the four descriptors. -/
theorem main_loop_in_bounds (b : board_t) (fuel : Nat) :
    ∀ (activations : Nat) (S : state_t) (m : machine_t), S ∈ canonical_states → m.in_enum b →
      main_loop b fuel activations S m ≠ .error .out_of_bounds ∧
      (∀ p ∈ main_steps b fuel activations S m,
        p.1 ∈ canonical_states ∧ p.1.id < 4 ∧ p.2 < no_evt) ∧
      (∀ s m1, main_loop b fuel activations S m = .ok (s, m1) →
        s ∈ canonical_states ∧ m1.in_enum b) := by
  intro activations
  induction activations with
  | zero =>
    intro S m hS hm
    refine ⟨by simp [main_loop], by simp [main_steps], ?_⟩
    intro s m1 h
    simp only [main_loop, Except.ok.injEq, Prod.mk.injEq] at h
    rw [← h.1, ← h.2]
    exact ⟨hS, hm⟩
  | succ a ih =>
    intro S m hS hm
    have hid : S.id < 4 := by
      simp only [canonical_states, List.mem_cons, List.mem_singleton, List.not_mem_nil,
        or_false] at hS
      rcases hS with rfl | rfl | rfl | rfl <;> decide
    rw [main_loop, main_steps]
    cases ha : main_activation b S fuel m with
    | error e =>
      simp only
      refine ⟨?_, by simp, ?_⟩
      · intro h
        cases h
        exact main_activation_in_bounds b S fuel m hm ha
      · intro s m1 h; cases h
    | ok r =>
      simp only
      obtain ⟨hr, hle, hne⟩ := main_activation_invariant b S (fun x => x.in_enum b)
        (fun E => E ≤ no_evt)
        (fun f x x1 hx hc => in_enum_hook b f x x1 hx hc)
        (fun x hx => in_enum_pass b _ x hx)
        (fun x hx => in_enum_flush b x hx) fuel m r.1 r.2 hm ha
      have hlt : r.1 < no_evt := Nat.lt_of_le_of_ne hle hne
      obtain ⟨next, hnext, hcan⟩ := state_table_at_defined S.id r.1 hid
        (Nat.lt_succ_of_lt hlt)
      rw [hnext]
      simp only
      obtain ⟨i1, i2, i3⟩ := ih next r.2 hcan hr
      refine ⟨i1, ?_, i3⟩
      intro p hp
      rcases List.mem_cons.mp hp with hp | hp
      · rw [hp]; exact ⟨hS, hid, hlt⟩
      · exact i2 p hp

/-- C19: table indexing in the control loop stays in bounds. When every
value the interrupts offer to the queue is one of Button1, Button2, Button3
and Timeout, a run of `main` never stops on an array read outside its bounds;
at every read of `state_table` the variable `current_state` is one of the
descriptors state0 .. state3, whose ids are 0 .. 3, so the row index is in
0..3, and the column index is in 0..3, never the `no_evt` column 4; and the
state in which `main` stands after any number of activations is again one of
the four descriptors. -/
theorem table_reads_in_bounds (b : board_t) (irqs : List (List irq_t))
    (fuel activations : Nat) (hirqs : schedule_in_enum b irqs) :
    main b irqs fuel activations ≠ .error .out_of_bounds ∧
      canonical_states.map state_t.id = [0, 1, 2, 3] ∧
      (∀ p ∈ main_steps b fuel activations state0 (init_board irqs),
        p.1 ∈ canonical_states ∧ p.1.id < 4 ∧ p.2 < no_evt ∧
          ∃ next, state_table_at p.1.id p.2 = some next ∧ next ∈ canonical_states) ∧
      (∀ s m, main b irqs fuel activations = .ok (s, m) → s ∈ canonical_states) := by
  have hinit : (init_board irqs).in_enum b :=
    ⟨by simp [init_board], by simp [init_board], by simp [init_board, event_fifo_init], hirqs⟩
  obtain ⟨i1, i2, i3⟩ :=
    main_loop_in_bounds b fuel activations state0 (init_board irqs) (by decide) hinit
  refine ⟨i1, rfl, ?_, ?_⟩
  · intro p hp
    obtain ⟨hc, hid, hlt⟩ := i2 p hp
    exact ⟨hc, hid, hlt, state_table_at_defined p.1.id p.2 hid (Nat.lt_succ_of_lt hlt)⟩
  · intro s m h
    exact (i3 s m h).1

/-- Instance of C19: a push of button 3 and then a timeout. -/
theorem table_reads_in_bounds_witness :
    schedule_in_enum ⟨13, 14, 15, 1⟩ [[.button 15 1 0], [.timeout]] ∧
      (main ⟨13, 14, 15, 1⟩ [[.button 15 1 0], [.timeout]] 1 2 ≠ .error .out_of_bounds ∧
        canonical_states.map state_t.id = [0, 1, 2, 3] ∧
        (∀ p ∈ main_steps ⟨13, 14, 15, 1⟩ 1 2 state0
            (init_board [[.button 15 1 0], [.timeout]]),
          p.1 ∈ canonical_states ∧ p.1.id < 4 ∧ p.2 < no_evt ∧
            ∃ next, state_table_at p.1.id p.2 = some next ∧ next ∈ canonical_states) ∧
        (∀ s m, main ⟨13, 14, 15, 1⟩ [[.button 15 1 0], [.timeout]] 1 2 = .ok (s, m) →
          s ∈ canonical_states)) :=
  have hs : schedule_in_enum ⟨13, 14, 15, 1⟩ [[.button 15 1 0], [.timeout]] := by
    intro batch hb irq hi v hv
    simp only [List.mem_cons, List.mem_singleton, List.not_mem_nil, or_false] at hb
    rcases hb with rfl | rfl <;>
      simp only [List.mem_singleton] at hi <;> subst hi <;>
      simp [irq_value, button_handler_evt] at hv <;> subst hv <;> decide
  ⟨hs, table_reads_in_bounds ⟨13, 14, 15, 1⟩ [[.button 15 1 0], [.timeout]] 1 2 hs⟩

/-! ## The sequence of states -/

/-- When the first N polls return a list whose entries other than `no_evt`
start with e, some k polls return `no_evt`, the poll after them returns e, and
the entries other than `no_evt` of the remaining polls are the rest of the
list. -/
theorem polls_split (b : board_t) :
    ∀ (N : Nat) (fifo : nrf_atfifo_t) (pending : List (List irq_t)) (e : event_t)
      (es : List event_t),
      (poll_results b N fifo pending).filter (fun r => decide (r ≠ no_evt)) = e :: es →
      ∃ k, k + 1 ≤ N ∧ poll_results b k fifo pending = List.replicate k no_evt ∧
        (get_event (serve_pending b (after_polls b k fifo pending).1
          (after_polls b k fifo pending).2)).1 = e ∧ e ≠ no_evt ∧
        (poll_results b (N - (k + 1)) (after_polls b (k + 1) fifo pending).1
          (after_polls b (k + 1) fifo pending).2).filter (fun r => decide (r ≠ no_evt))
          = es := by
  intro N
  induction N with
  | zero => intro fifo pending e es h; simp [poll_results] at h
  | succ N ih =>
    intro fifo pending e es h
    rw [poll_results] at h
    simp only [List.filter_cons] at h
    by_cases hr : (get_event (serve_pending b fifo pending)).1 = no_evt
    · rw [if_neg (by simpa using hr)] at h
      obtain ⟨k, hk, hidle, hlast, hne, hrest⟩ := ih _ _ e es h
      refine ⟨k + 1, by omega, ?_, ?_, hne, ?_⟩
      · rw [poll_results, List.replicate_succ, hr, hidle]
      · rw [after_polls]; exact hlast
      · rw [after_polls]
        have : N + 1 - (k + 1 + 1) = N - (k + 1) := by omega
        rw [this]; exact hrest
    · rw [if_pos (by simpa using hr)] at h
      simp only [List.cons.injEq] at h
      refine ⟨0, by omega, rfl, ?_, ?_, ?_⟩
      · simpa [after_polls] using h.1
      · rw [← h.1]; exact hr
      · simpa [after_polls] using h.2

/-- The events delivered in a trace are those delivered in its two parts. -/
theorem delivered_append (l1 l2 : List call_t) :
    delivered (l1 ++ l2) = delivered l1 ++ delivered l2 := by
  induction l1 with
  | nil => rfl
  | cons c rest ih =>
    cases c with
    | get_event ret =>
      by_cases hr : ret = no_evt <;> simp [delivered, hr, ih]
    | _ => simp [delivered, ih]

/-- The events delivered in a trace are found among the calls of `main`. -/
theorem delivered_filter (l : List call_t) :
    delivered (l.filter call_t.is_action) = delivered l := by
  induction l with
  | nil => rfl
  | cons c rest ih =>
    cases c <;> simp [List.filter_cons, call_t.is_action, delivered, ih]

/-- Idle passes deliver no event. -/
theorem delivered_idle_passes (S : state_t) (n : Nat) : delivered (idle_passes S n) = [] := by
  induction n with
  | zero => rfl
  | succ n ih => simp [idle_passes, delivered, ih]

/-- A pass of the inner loop whose poll returns an event E other than
`no_evt` ends the loop with E. -/
theorem main_inner_last (b : board_t) (S : state_t) (E : event_t) (hE : E ≠ no_evt)
    (fuel : Nat) (m : machine_t) (h0 : m.offset_0 < 4) (h2 : m.offset_2 < 4)
    (hpoll : (get_event (serve_pending b m.fifo m.pending)).1 = E) :
    ∃ m1 added, main_inner b S (fuel + 1) m = .ok (E, m1) ∧
      m1.offset_0 < 4 ∧ m1.offset_2 < 4 ∧
      (m1.fifo, m1.pending) = after_polls b 1 m.fifo m.pending ∧
      m1.trace = m.trace ++ added ∧
      added.filter call_t.is_action
        = [.hook S.Do, .nrf_delay_ms S.delay_ms, .get_event E] := by
  obtain ⟨ma, inner, hcall, hf, hp, h0a, h2a, htr, hfil⟩ := call_hook_ok S.Do m h0 h2
  obtain ⟨q1, q2, q3, q4, q5, q6⟩ := poll_after_delay b S.delay_ms ma
  rw [hf, hp] at q1 q2 q6
  rw [hp] at q3
  rw [hpoll] at q1 q6
  refine ⟨(poll (nrf_delay_ms b S.delay_ms ma)).2,
    (.hook S.Do :: inner) ++ [.nrf_delay_ms S.delay_ms, .get_event E], ?_, ?_, ?_, ?_, ?_, ?_⟩
  · simp only [main_inner, hcall, q1, ne_eq, hE, not_false_eq_true, if_true]
    exact congrArg Except.ok (Prod.ext q1 rfl)
  · rw [q4]; exact h0a
  · rw [q5]; exact h2a
  · simp [after_polls, q2, q3]
  · rw [q6, htr, List.append_assoc]
  · simp [List.filter_append, hfil, call_t.is_action]

/-- One more round of wait and poll after k rounds. -/
theorem after_polls_succ (b : board_t) :
    ∀ (k : Nat) (fifo : nrf_atfifo_t) (pending : List (List irq_t)),
      after_polls b (k + 1) fifo pending
        = after_polls b 1 (after_polls b k fifo pending).1 (after_polls b k fifo pending).2 := by
  intro k
  induction k with
  | zero => intro fifo pending; rfl
  | succ k ih =>
    intro fifo pending
    have h1 : after_polls b (k + 1 + 1) fifo pending
        = after_polls b (k + 1) (get_event (serve_pending b fifo pending)).2 pending.tail := rfl
    have h2 : after_polls b (k + 1) fifo pending
        = after_polls b k (get_event (serve_pending b fifo pending)).2 pending.tail := rfl
    rw [h1, ih, h2]

/-- A part of the trace without calls of `main` delivers no event. -/
theorem delivered_of_no_action (l : List call_t) (h : l.filter call_t.is_action = []) :
    delivered l = [] := by
  rw [← delivered_filter, h]; rfl

/-- An activation of S started where k polls return `no_evt` and the next
poll returns an event E other than `no_evt` ends with E, given fuel for k + 1
passes. It leaves the queue and the schedule as k + 1 rounds of wait and poll
do, and E is the one event delivered during it. -/
theorem main_activation_run (b : board_t) (S : state_t) (k : Nat) (E : event_t) (fuel : Nat)
    (m : machine_t) (h0 : m.offset_0 < 4) (h2 : m.offset_2 < 4) (hE : E ≠ no_evt)
    (hidle : poll_results b k m.fifo m.pending = List.replicate k no_evt)
    (hlast : (get_event (serve_pending b (after_polls b k m.fifo m.pending).1
      (after_polls b k m.fifo m.pending).2)).1 = E)
    (hfuel : k + 1 ≤ fuel) :
    ∃ m1, main_activation b S fuel m = .ok (E, m1) ∧ m1.offset_0 < 4 ∧ m1.offset_2 < 4 ∧
      (m1.fifo, m1.pending) = after_polls b (k + 1) m.fifo m.pending ∧
      delivered m1.trace = delivered m.trace ++ [E] := by
  obtain ⟨ma, ina, hca, hfa, hpa, h0a, h2a, htra, hfila⟩ := call_hook_ok S.Enter m h0 h2
  obtain ⟨mk, addk, hrunk, h0k, h2k, hqk, htrk, hfilk⟩ :=
    main_inner_idle b S k ma h0a h2a (by rw [hfa, hpa]; exact hidle)
  rw [hfa, hpa] at hqk
  have hfk : mk.fifo = (after_polls b k m.fifo m.pending).1 := congrArg Prod.fst hqk
  have hpk : mk.pending = (after_polls b k m.fifo m.pending).2 := congrArg Prod.snd hqk
  obtain ⟨mb, addb, hrunb, h0b, h2b, hqb, htrb, hfilb⟩ :=
    main_inner_last b S E hE (fuel - (k + 1)) mk h0k h2k (by rw [hfk, hpk]; exact hlast)
  obtain ⟨mc, inc, hcc, hfc, hpc, h0c, h2c, htrc, hfilc⟩ := call_hook_ok S.Exit mb h0b h2b
  have hinner : main_inner b S fuel ma = .ok (E, mb) := by
    have hsplit : fuel = k + (fuel - (k + 1) + 1) := by omega
    rw [hsplit, hrunk, hrunb]
  refine ⟨mc, ?_, h0c, h2c, ?_, ?_⟩
  · simp only [main_activation, hca, hinner, hcc]
  · rw [hfc, hpc, hqb, hfk, hpk, ← after_polls_succ]
  · have hdb : delivered addb = [E] := by
      rw [← delivered_filter, hfilb]
      simp [delivered, hE]
    have hdk : delivered addk = [] := by
      rw [← delivered_filter, hfilk]; exact delivered_idle_passes S k
    rw [htrc, htrb, htrk, htra]
    simp only [delivered_append, hdb, hdk, List.append_nil]
    have ha : delivered (call_t.hook S.Enter :: ina) = [] := by
      simp [delivered, delivered_of_no_action ina hfila]
    have hc : delivered (call_t.hook S.Exit :: inc) = [] := by
      simp [delivered, delivered_of_no_action inc hfilc]
    rw [ha, hc]
    simp

/-- A run of the outer loop from one of the four states, where the polls to
come deliver the events es, each below `no_evt`: with fuel for all those polls
the run completes one activation per event and ends in the state that the
table yields for es; the events read at the table reads are es, the states
read there followed by the final state are the path of es through the table,
and the trace shows the delivery of es and of nothing else. -/
theorem main_loop_fold (b : board_t) (fuel : Nat) :
    ∀ (es : List event_t) (S : state_t) (m : machine_t) (N : Nat), S ∈ canonical_states →
      m.offset_0 < 4 → m.offset_2 < 4 →
      (poll_results b N m.fifo m.pending).filter (fun r => decide (r ≠ no_evt)) = es →
      (∀ e ∈ es, e < no_evt) → N ≤ fuel →
      ∃ s m1, main_loop b fuel es.length S m = .ok (s, m1) ∧ run_events S es = some s ∧
        (main_steps b fuel es.length S m).map Prod.snd = es ∧
        (main_steps b fuel es.length S m).map Prod.fst ++ [s] = state_path S es ∧
        delivered m1.trace = delivered m.trace ++ es := by
  intro es
  induction es with
  | nil =>
    intro S m N _ _ _ _ _ _
    exact ⟨S, m, rfl, rfl, rfl, rfl, by simp⟩
  | cons e es ih =>
    intro S m N hS h0 h2 hpolls hvalid hfuel
    obtain ⟨k, hk, hidle, hlast, hne, hrest⟩ := polls_split b N m.fifo m.pending e es hpolls
    obtain ⟨m1, hact, h0a, h2a, hq, hdel⟩ :=
      main_activation_run b S k e fuel m h0 h2 hne hidle hlast (by omega)
    have hid : S.id < 4 := by
      simp only [canonical_states, List.mem_cons, List.mem_singleton, List.not_mem_nil,
        or_false] at hS
      rcases hS with rfl | rfl | rfl | rfl <;> decide
    have he : e < no_evt := hvalid e (List.mem_cons_self _ _)
    obtain ⟨next, hnext, hcan⟩ := state_table_at_defined S.id e hid (Nat.lt_succ_of_lt he)
    have hf1 : m1.fifo = (after_polls b (k + 1) m.fifo m.pending).1 := congrArg Prod.fst hq
    have hp1 : m1.pending = (after_polls b (k + 1) m.fifo m.pending).2 := congrArg Prod.snd hq
    obtain ⟨s, m2, hloop, hrun, hsnd, hfst, hdel2⟩ :=
      ih next m1 (N - (k + 1)) hcan h0a h2a (by rw [hf1, hp1]; exact hrest)
        (fun x hx => hvalid x (List.mem_cons_of_mem _ hx)) (by omega)
    refine ⟨s, m2, ?_, ?_, ?_, ?_, ?_⟩
    · simp only [List.length_cons, main_loop, hact, hnext]
      exact hloop
    · simp only [run_events, next_state, hnext]
      exact hrun
    · simp only [List.length_cons, main_steps, hact, hnext, List.map_cons, hsnd]
    · simp only [List.length_cons, main_steps, hact, hnext, List.map_cons, List.cons_append,
        state_path, next_state, hfst]
    · rw [hdel2, hdel, List.append_assoc]
      rfl

/-- Running a list of events through the table is the left fold of the table
read over the list. -/
theorem run_events_eq_foldlM (es : List event_t) :
    ∀ s : state_t, run_events s es = es.foldlM (fun s e => state_table_at s.id e) s := by
  induction es with
  | nil => intro s; rfl
  | cons e es ih =>
    intro s
    simp only [run_events, next_state, List.foldlM_cons]
    cases state_table_at s.id e with
    | none => rfl
    | some t => exact ih t

/-- C18: the sequence of states is the left fold of the table over the
delivered events. Let the polls to come deliver, in this order, the events es
(the values other than `no_evt` among the first N poll results), each of them
Button1, Button2, Button3 or Timeout. Then `main`, started in state 0 with
fuel for N passes, completes one activation per event and stands in the state
s that the left fold of the table read over es yields from state 0. The
activated states followed by s are the path of es through the table, one more
state than events; the event read at the i-th table read is the i-th of es;
and the polls that returned an event returned exactly es. -/
theorem state_sequence_is_fold (b : board_t) (irqs : List (List irq_t)) (N fuel : Nat)
    (es : List event_t)
    (hpolls : (poll_results b N event_fifo_init irqs).filter (fun r => decide (r ≠ no_evt))
      = es)
    (hvalid : ∀ e ∈ es, e < no_evt) (hfuel : N ≤ fuel) :
    ∃ s m, main b irqs fuel es.length = .ok (s, m) ∧
      es.foldlM (fun s e => state_table_at s.id e) state0 = some s ∧
      (main_steps b fuel es.length state0 (init_board irqs)).map Prod.snd = es ∧
      (main_steps b fuel es.length state0 (init_board irqs)).map Prod.fst ++ [s]
        = state_path state0 es ∧
      (state_path state0 es).length = es.length + 1 ∧
      delivered m.trace = es := by
  obtain ⟨s, m, hloop, hrun, hsnd, hfst, hdel⟩ :=
    main_loop_fold b fuel es state0 (init_board irqs) N (by decide) (by simp [init_board])
      (by simp [init_board]) hpolls hvalid hfuel
  refine ⟨s, m, hloop, ?_, hsnd, hfst, ?_, ?_⟩
  · rw [← run_events_eq_foldlM]; exact hrun
  · rw [← hfst, List.length_append, List.length_map, List.length_singleton]
    have := congrArg List.length hsnd
    rw [List.length_map] at this
    rw [this]
  · simpa [init_board, delivered] using hdel

/-- Instance of C18: button 2 is pushed before the third poll, button 3
before the fourth, and the timer expires before the sixth; the loop goes from
state 0 through states 1 and 3 back to state 0. -/
theorem state_sequence_is_fold_witness :
    ((poll_results ⟨13, 14, 15, 1⟩ 6 event_fifo_init
          [[], [], [.button 14 1 0], [.button 15 1 0], [], [.timeout]]).filter
          (fun r => decide (r ≠ no_evt)) = [b2_evt, b3_evt, timeout_evt] ∧
      (∀ e ∈ [b2_evt, b3_evt, timeout_evt], e < no_evt) ∧ 6 ≤ 6) ∧
    ∃ s m,
      main ⟨13, 14, 15, 1⟩ [[], [], [.button 14 1 0], [.button 15 1 0], [], [.timeout]] 6
          [b2_evt, b3_evt, timeout_evt].length = .ok (s, m) ∧
      [b2_evt, b3_evt, timeout_evt].foldlM (fun s e => state_table_at s.id e) state0 = some s ∧
      (main_steps ⟨13, 14, 15, 1⟩ 6 [b2_evt, b3_evt, timeout_evt].length state0
          (init_board [[], [], [.button 14 1 0], [.button 15 1 0], [], [.timeout]])).map
          Prod.snd = [b2_evt, b3_evt, timeout_evt] ∧
      (main_steps ⟨13, 14, 15, 1⟩ 6 [b2_evt, b3_evt, timeout_evt].length state0
          (init_board [[], [], [.button 14 1 0], [.button 15 1 0], [], [.timeout]])).map
          Prod.fst ++ [s] = state_path state0 [b2_evt, b3_evt, timeout_evt] ∧
      (state_path state0 [b2_evt, b3_evt, timeout_evt]).length
        = [b2_evt, b3_evt, timeout_evt].length + 1 ∧
      delivered m.trace = [b2_evt, b3_evt, timeout_evt] :=
  ⟨⟨by decide, by decide, by decide⟩,
    state_sequence_is_fold ⟨13, 14, 15, 1⟩
      [[], [], [.button 14 1 0], [.button 15 1 0], [], [.timeout]] 6 6
      [b2_evt, b3_evt, timeout_evt] (by decide) (by decide) (by decide)⟩

end StateMachine
